import Mathlib

/-!
Verification of the token-alignment engine of `RewriteMacros.cpp`
(`clang -rewrite-macros`): the pass walks the raw token stream of the main
file and the fully preprocessed token stream in parallel and issues text
edits (comment-out markers, macro-expansion insertions, directive markers)
into a rewrite buffer.

The embedding below mirrors the source functions `isSameToken`,
`GetNextRawTok` and the body of `RewriteMacrosInInput`:

* a `Token` carries the fields the pass consults: kind, the interned
  identifier (symbol interning makes pointer equality on `IdentifierInfo*`
  the same as equality of the interned spelling, so the reference is
  modelled by the spelling itself), the resolved file offset
  (`SM.getFileOffset` of the instantiation location), length, the
  start-of-line and leading-space flags, the rendered spelling
  (`PP.getSpelling`) and whether the instantiation location lies in the
  main file (`SM.isFromMainFile`);
* the preprocessed stream is a list consumed left to right (`PP.Lex`);
* out-of-range vector accesses and the `assert(CurTok < RawTokens.size())`
  in `GetNextRawTok` are modelled by `Option`: `none` means the C++ run
  would have failed the assertion / read out of bounds;
* the three inner `while` loops and the outer loop are written as
  structural recursion on an explicit fuel (so every run is computable by
  evaluation); fuel exhaustion also yields `none`, and the well-formedness
  lemmas below show the fuel passed by the callers never runs out;
* the rewrite buffer is the emission-ordered list of issued edits.
-/

namespace RewriteMacros

/-- Token kinds the pass distinguishes (`tok::identifier`, `tok::comment`,
`tok::hash`, `tok::eof`); every other kind is opaque. -/
inductive TokKind where
  | identifier
  | comment
  | hash
  | eof
  | other (n : Nat)
  deriving DecidableEq, Repr

/-- A lexed token as the pass sees it. `ident` models
`getIdentifierInfo()` (interned, so reference equality is spelling
equality), `offset` the resolved file offset of the (instantiation)
location, `fromMainFile` the `SM.isFromMainFile` test on that location. -/
structure Token where
  kind : TokKind
  ident : Option String := none
  offset : Nat := 0
  length : Nat := 0
  startsLine : Bool := false
  hasLeadingSpace : Bool := false
  spelling : String := ""
  fromMainFile : Bool := true
  deriving DecidableEq, Repr

/-- A default token, used only as the `getD` fallback. -/
def dummyTok : Token := { kind := TokKind.other 0 }

/-- Mirror of `isSameToken(Token &RawTok, Token &PPTok)`: same kind and
same identifier info, or same non-null identifier info. -/
def isSameToken (RawTok PPTok : Token) : Bool :=
  if PPTok.kind == RawTok.kind && PPTok.ident == RawTok.ident then
    true
  else if PPTok.ident.isSome && PPTok.ident == RawTok.ident then
    true
  else
    false

/-- Mirror of `GetNextRawTok(RawTokens, CurTok, ReturnComment)`: skip one
comment when the client does not want comments, return the token and the
advanced cursor.  `none` models the `assert(CurTok < RawTokens.size())`
failing, or the unchecked read one past it after the comment skip. -/
def GetNextRawTok (RawTokens : List Token) (CurTok : Nat) (ReturnComment : Bool) :
    Option (Token × Nat) :=
  match RawTokens[CurTok]? with
  | none => none
  | some t0 =>
    if !ReturnComment && t0.kind == TokKind.comment then
      match RawTokens[CurTok + 1]? with
      | none => none
      | some t => some (t, CurTok + 2)
    else
      some (t0, CurTok + 1)

/-- Which rewrite-buffer entry point received the edit
(`InsertTextAfter` / `InsertTextBefore`). -/
inductive EditAnchor where
  | insertAfter
  | insertBefore
  deriving DecidableEq, Repr

/-- Which statement of `RewriteMacrosInInput` issued the edit: the
`#warning` / `#pragma mark` marker, a deletion-run opener or closer, or an
insertion-run expansion string. -/
inductive EditSrc where
  | directive
  | delOpen
  | delClose
  | insertion
  deriving DecidableEq, Repr

/-- One issued edit: offset into the original text, inserted text, anchor
side, and the issuing statement. -/
structure Edit where
  offset : Nat
  text : String
  anchor : EditAnchor
  src : EditSrc
  deriving DecidableEq, Repr

/-- Mirror of lines 129-141: decide the `#warning` / `#pragma mark` edit
from the token after the `#`.  `none` models dereferencing a null
`IdentifierInfo*` or the unchecked `RawTokens[CurRawTok+1]` read. -/
def directiveEdit (raw : List Token) (cur : Nat) (nt : Token) (hashOffs : Nat) :
    Option (List Edit) :=
  if nt.kind = TokKind.identifier then
    match nt.ident with
    | none => none
    | some nm =>
      if nm = "warning" then
        some [⟨hashOffs, "//", EditAnchor.insertAfter, EditSrc.directive⟩]
      else if nm = "pragma" then
        match raw[cur + 1]? with
        | none => none
        | some nt2 =>
          if nt2.kind = TokKind.identifier then
            match nt2.ident with
            | none => none
            | some nm2 =>
              if nm2 = "mark" then
                some [⟨hashOffs, "//", EditAnchor.insertAfter, EditSrc.directive⟩]
              else
                some []
          else
            some []
      else
        some []
  else
    some []

/-- Mirror of lines 145-147: after a line-initial `#`, advance the raw
cursor (skipping comments) until a token that starts a line, or eof.
Structural on the fuel; the callers pass fuel exceeding the remaining
token count, which the lemmas below show never runs out on a run that
stays within the list. -/
def skipDirectiveLine (raw : List Token) : Nat → Token → Nat → Option (Token × Nat)
  | 0, _, _ => none
  | fuel + 1, RawTok, cur =>
    if RawTok.startsLine = false ∧ RawTok.kind ≠ TokKind.eof then
      match GetNextRawTok raw cur false with
      | none => none
      | some tc => skipDirectiveLine raw fuel tc.1 tc.2
    else
      some (RawTok, cur)

/-- Mirror of lines 168-186, the deletion-run do/while loop.  Arguments
after the fuel are the current raw token, its offset and the cursor; the
current preprocessed token and its offset are fixed during the run.
Returns the final `EndPos`, the raw token left current, and the cursor. -/
def deletionLoop (raw : List Token) (PPTok : Token) (PPOffs : Nat) :
    Nat → Token → Nat → Nat → Option (Nat × Token × Nat)
  | 0, _, _, _ => none
  | fuel + 1, RawTok, RawOffs, cur =>
    match GetNextRawTok raw cur true with
    | none => none
    | some tc =>
      if tc.1.kind = TokKind.comment then
        match GetNextRawTok raw tc.2 false with
        | none => none
        | some tc2 => some (RawOffs + RawTok.length, tc2.1, tc2.2)
      else if tc.1.offset ≤ PPOffs ∧ tc.1.startsLine = false ∧
          (PPOffs ≠ tc.1.offset ∨ isSameToken tc.1 PPTok = false) then
        deletionLoop raw PPTok PPOffs fuel tc.1 tc.1.offset tc.2
      else
        some (RawOffs + RawTok.length, tc.1, tc.2)

/-- Mirror of lines 195-201, the insertion-run while loop: while the
preprocessed token's offset is below the raw token's, append a space and
the token's spelling and pull the next preprocessed token. -/
def insertionLoop (pp : List Token) (RawOffs : Nat) :
    Nat → Token → Nat → String → Option (String × Token × Nat)
  | 0, _, _, _ => none
  | fuel + 1, PPTok, i, acc =>
    if PPTok.offset < RawOffs then
      match pp[i]? with
      | none => none
      | some t => insertionLoop pp RawOffs fuel t (i + 1) (acc ++ " " ++ PPTok.spelling)
    else
      some (acc, PPTok, i)

/-- The two token sources of one run. -/
structure AlignCtx where
  rawTokens : List Token
  ppTokens : List Token
  deriving DecidableEq, Repr

/-- The loop state: the raw cursor `CurRawTok` and current `RawTok`, the
index of the next unread preprocessed token and the current `PPTok`, and
the edits issued so far in emission order. -/
structure AlignState where
  curRawTok : Nat
  rawTok : Token
  ppIdx : Nat
  ppTok : Token
  edits : List Edit
  deriving DecidableEq, Repr

/-- Result of one iteration of the `while` loop of lines 113-204. -/
inductive StepResult where
  | done (s : AlignState)
  | next (s : AlignState)
  | fail
  deriving DecidableEq, Repr

/-- One iteration of the main alignment loop (lines 113-204), with the
branches in source order: loop-exit test, foreign-origin skip, directive
line, exact match, deletion run, insertion run. -/
def alignStep (ctx : AlignCtx) (s : AlignState) : StepResult :=
  if s.rawTok.kind = TokKind.eof ∧ s.ppTok.kind = TokKind.eof then
    StepResult.done s
  else if s.ppTok.fromMainFile = false then
    match ctx.ppTokens[s.ppIdx]? with
    | none => StepResult.fail
    | some pt => StepResult.next { s with ppTok := pt, ppIdx := s.ppIdx + 1 }
  else if s.rawTok.kind = TokKind.hash ∧ s.rawTok.startsLine = true then
    match ctx.rawTokens[s.curRawTok]? with
    | none => StepResult.fail
    | some nt =>
      match directiveEdit ctx.rawTokens s.curRawTok nt s.rawTok.offset with
      | none => StepResult.fail
      | some es =>
        match GetNextRawTok ctx.rawTokens s.curRawTok false with
        | none => StepResult.fail
        | some tc =>
          match skipDirectiveLine ctx.rawTokens (ctx.rawTokens.length + 1) tc.1 tc.2 with
          | none => StepResult.fail
          | some tc2 =>
            StepResult.next
              { s with
                rawTok := tc2.1
                curRawTok := tc2.2
                edits := s.edits ++ es }
  else if s.ppTok.offset = s.rawTok.offset ∧ isSameToken s.rawTok s.ppTok = true then
    match GetNextRawTok ctx.rawTokens s.curRawTok false with
    | none => StepResult.fail
    | some tc =>
      match ctx.ppTokens[s.ppIdx]? with
      | none => StepResult.fail
      | some pt =>
        StepResult.next
          { s with
            rawTok := tc.1
            curRawTok := tc.2
            ppTok := pt
            ppIdx := s.ppIdx + 1 }
  else if s.rawTok.offset ≤ s.ppTok.offset then
    match deletionLoop ctx.rawTokens s.ppTok s.ppTok.offset (ctx.rawTokens.length + 1)
        s.rawTok s.rawTok.offset s.curRawTok with
    | none => StepResult.fail
    | some edc =>
      StepResult.next
        { s with
          rawTok := edc.2.1
          curRawTok := edc.2.2
          edits := s.edits ++
            [⟨s.rawTok.offset, if s.rawTok.hasLeadingSpace then "/*" else " /*",
              EditAnchor.insertAfter, EditSrc.delOpen⟩,
             ⟨edc.1, "*/", EditAnchor.insertBefore, EditSrc.delClose⟩] }
  else
    match insertionLoop ctx.ppTokens s.rawTok.offset (ctx.ppTokens.length + 1)
        s.ppTok s.ppIdx "" with
    | none => StepResult.fail
    | some ati =>
      StepResult.next
        { s with
          ppTok := ati.2.1
          ppIdx := ati.2.2
          edits := s.edits ++
            [⟨s.ppTok.offset, ati.1 ++ " ", EditAnchor.insertBefore, EditSrc.insertion⟩] }

/-- The main loop, iterated on an explicit fuel; `none` on fuel exhaustion
or when an iteration fails (assertion / out-of-bounds read). -/
def alignLoopF (ctx : AlignCtx) : Nat → AlignState → Option AlignState
  | 0, _ => none
  | fuel + 1, s =>
    match alignStep ctx s with
    | StepResult.done s2 => some s2
    | StepResult.fail => none
    | StepResult.next s2 => alignLoopF ctx fuel s2

/-- How far the two cursors still are from the ends of their streams;
every continuing iteration strictly decreases it. -/
def alignMeasure (ctx : AlignCtx) (s : AlignState) : Nat :=
  (ctx.rawTokens.length - s.curRawTok) + (ctx.ppTokens.length - s.ppIdx)

/-- Whole run of `RewriteMacrosInInput`'s alignment phase: fetch the first
raw token (line 99), the first preprocessed token (line 105), and iterate;
the fuel is one more than the measure of any reachable state. -/
def alignRun (raw pp : List Token) : Option AlignState :=
  match GetNextRawTok raw 0 false with
  | none => none
  | some tc =>
    match pp[0]? with
    | none => none
    | some pt =>
      alignLoopF ⟨raw, pp⟩ (raw.length + pp.length + 1) ⟨tc.2, tc.1, 1, pt, []⟩

/-- Well-formedness of the raw token list, as `LexRawTokensFromMainFile`
guarantees it: nonempty, ends in an eof token (null identifier info), eof
nowhere else, identifier tokens carry identifier info (lines 79-80), and
no token starts past the end-of-file offset. -/
def wfRaw (raw : List Token) : Prop :=
  raw ≠ [] ∧
  (raw.getLastD dummyTok).kind = TokKind.eof ∧
  (raw.getLastD dummyTok).ident = none ∧
  (∀ i, (h : i < raw.length) → i + 1 < raw.length → (raw.get ⟨i, h⟩).kind ≠ TokKind.eof) ∧
  (∀ t ∈ raw, t.kind = TokKind.identifier → t.ident.isSome = true) ∧
  (∀ t ∈ raw, t.offset ≤ (raw.getLastD dummyTok).offset)

/-- Well-formedness of the preprocessed stream relative to the raw list,
as the preprocessor and source manager guarantee it: nonempty, ends in
the main file's eof (null identifier info, resolved offset equal to the
raw eof offset), eof nowhere else, and every main-file token before eof
resolves to an offset strictly inside the file. -/
def wfPP (raw pp : List Token) : Prop :=
  pp ≠ [] ∧
  (pp.getLastD dummyTok).kind = TokKind.eof ∧
  (pp.getLastD dummyTok).ident = none ∧
  (pp.getLastD dummyTok).fromMainFile = true ∧
  (pp.getLastD dummyTok).offset = (raw.getLastD dummyTok).offset ∧
  (∀ i, (h : i < pp.length) → i + 1 < pp.length → (pp.get ⟨i, h⟩).kind ≠ TokKind.eof) ∧
  (∀ t ∈ pp, t.fromMainFile = true → t.kind ≠ TokKind.eof →
    t.offset < (raw.getLastD dummyTok).offset)

/-- The emitted edit offsets, in emission order, never decrease. -/
def offsetsNonDecreasing : List Edit → Bool
  | [] => true
  | [_] => true
  | a :: b :: rest => decide (a.offset ≤ b.offset) && offsetsNonDecreasing (b :: rest)

/-- Two adjacent comment tokens followed by eof (used to exercise the
single-comment skip of `GetNextRawTok`). -/
def twoCommentsRaw : List Token :=
  [{ kind := TokKind.comment, offset := 0, length := 5, startsLine := true, spelling := "/*a*/" },
   { kind := TokKind.comment, offset := 6, length := 5, hasLeadingSpace := true,
     spelling := "/*b*/" },
   { kind := TokKind.eof, offset := 12 }]

/-- The first comment of `twoCommentsRaw`. -/
def twoCommentsFirst : Token :=
  { kind := TokKind.comment, offset := 0, length := 5, startsLine := true, spelling := "/*a*/" }

/-- The second comment of `twoCommentsRaw`. -/
def twoCommentsSecond : Token :=
  { kind := TokKind.comment, offset := 6, length := 5, hasLeadingSpace := true,
    spelling := "/*b*/" }

/-- Identifier token `a` at offset 0 (first token of `exC2raw`). -/
def exC2aTok : Token :=
  { kind := TokKind.identifier, ident := some "a", offset := 0, length := 1, startsLine := true,
    spelling := "a" }

/-- The comment of `exC2raw`, occupying offsets 2-6. -/
def exC2comment : Token :=
  { kind := TokKind.comment, offset := 2, length := 5, hasLeadingSpace := true,
    spelling := "/*c*/" }

/-- Identifier token `x` at offset 8 of `exC2raw`. -/
def exC2xTok : Token :=
  { kind := TokKind.identifier, ident := some "x", offset := 8, length := 1,
    hasLeadingSpace := true, spelling := "x" }

/-- Raw stream for the deletion-run/comment scenario: `a /*c*/ x` where
the preprocessed stream starts only at `x` (so `a` is deleted and the
run immediately meets the comment). -/
def exC2raw : List Token :=
  [exC2aTok, exC2comment, exC2xTok, { kind := TokKind.eof, offset := 9 }]

/-- Preprocessed stream for the deletion-run/comment scenario. -/
def exC2pp : List Token :=
  [exC2xTok, { kind := TokKind.eof, offset := 9 }]

/-- The condition of lines 129-141 under which the directive branch
issues the `//` marker: the token after the `#` is the identifier
`warning`, or the identifier `pragma` immediately followed by the
identifier `mark`. -/
def directiveWantsMarker (raw : List Token) (cur : Nat) (nt : Token) : Bool :=
  nt.kind == TokKind.identifier &&
    (nt.ident == some "warning" ||
      (nt.ident == some "pragma" &&
        match raw[cur + 1]? with
        | some nt2 => nt2.kind == TokKind.identifier && nt2.ident == some "mark"
        | none => false))

/-- The accumulation of lines 196-198 as a function of the consumed
tokens: for each token, append a single space and then its rendered
spelling. -/
def expandAcc (acc : String) : List Token → String
  | [] => acc
  | t :: ts => expandAcc (acc ++ " " ++ t.spelling) ts

/-- Raw stream `A \n y` where `A` is a macro use: `A` on its own line,
`y` on the next line. -/
def exC4raw : List Token :=
  [{ kind := TokKind.identifier, ident := some "A", offset := 10, length := 1, startsLine := true,
     spelling := "A" },
   { kind := TokKind.identifier, ident := some "y", offset := 12, length := 1, startsLine := true,
     spelling := "y" },
   { kind := TokKind.eof, offset := 13 }]

/-- Preprocessed stream for `exC4raw`: `A` expands to `B C` (both
resolving to `A`'s offset 10), then `y` and eof. -/
def exC4pp : List Token :=
  [{ kind := TokKind.identifier, ident := some "B", offset := 10, length := 1, spelling := "B" },
   { kind := TokKind.identifier, ident := some "C", offset := 10, length := 1, spelling := "C" },
   { kind := TokKind.identifier, ident := some "y", offset := 12, length := 1, startsLine := true,
     spelling := "y" },
   { kind := TokKind.eof, offset := 13 }]

/-- Context for the insertion-run witness: the expansion stream continues
with a token at offset 3 and stops at a token at offset 5. -/
def exC1ctx : AlignCtx :=
  ⟨[], [{ kind := TokKind.identifier, ident := some "m2", offset := 3, length := 2,
          spelling := "m2" },
        { kind := TokKind.identifier, ident := some "w", offset := 5, length := 1,
          spelling := "w" }]⟩

/-- State for the insertion-run witness: the raw cursor rests on a token
at offset 5 while the current expansion token resolves to offset 2. -/
def exC1s : AlignState :=
  ⟨7, { kind := TokKind.identifier, ident := some "w", offset := 5, length := 1,
        spelling := "w" },
   0, { kind := TokKind.identifier, ident := some "m1", offset := 2, length := 2,
        spelling := "m1" },
   []⟩

/-- The token at which the witness insertion run stops. -/
def exC1stop : Token :=
  { kind := TokKind.identifier, ident := some "w", offset := 5, length := 1, spelling := "w" }

/-- Raw stream `#warning` then eof for the directive witness. -/
def exC3raw : List Token :=
  [{ kind := TokKind.hash, offset := 0, length := 1, startsLine := true, spelling := "#" },
   { kind := TokKind.identifier, ident := some "warning", offset := 1, length := 7,
     spelling := "warning" },
   { kind := TokKind.eof, offset := 10 }]

/-- Preprocessed stream for `exC3raw`: the directive produces nothing. -/
def exC3pp : List Token :=
  [{ kind := TokKind.eof, offset := 10 }]

/-- Context for the directive witness. -/
def exC3ctx : AlignCtx := ⟨exC3raw, exC3pp⟩

/-- State for the directive witness: the raw cursor rests on the `#`. -/
def exC3s : AlignState :=
  ⟨1, { kind := TokKind.hash, offset := 0, length := 1, startsLine := true, spelling := "#" },
   1, { kind := TokKind.eof, offset := 10 }, []⟩

/-- Raw stream for the deletion-run witness: `P` on one line (deleted),
`q` on the next. -/
def exC6raw : List Token :=
  [{ kind := TokKind.identifier, ident := some "P", offset := 0, length := 1, startsLine := true,
     spelling := "P" },
   { kind := TokKind.identifier, ident := some "q", offset := 3, length := 1, startsLine := true,
     spelling := "q" },
   { kind := TokKind.eof, offset := 4 }]

/-- The `q` token of `exC6raw`. -/
def exC6q : Token :=
  { kind := TokKind.identifier, ident := some "q", offset := 3, length := 1, startsLine := true,
    spelling := "q" }

/-- Context for the deletion-run witness. -/
def exC6ctx : AlignCtx := ⟨exC6raw, [exC6q, { kind := TokKind.eof, offset := 4 }]⟩

/-- State for the deletion-run witness: raw cursor at `P`, expansion
cursor already at `q`. -/
def exC6s : AlignState :=
  ⟨1, { kind := TokKind.identifier, ident := some "P", offset := 0, length := 1,
        startsLine := true, spelling := "P" },
   1, exC6q, []⟩

/-- The `warning` identifier token of `exC3raw`. -/
def exC3warn : Token :=
  { kind := TokKind.identifier, ident := some "warning", offset := 1, length := 7,
    spelling := "warning" }

/-- The eof token of `exC3raw`. -/
def exC3eofTok : Token := { kind := TokKind.eof, offset := 10 }

/-- Identifier token `z` used by the termination witness streams. -/
def exC8z : Token :=
  { kind := TokKind.identifier, ident := some "z", offset := 0, length := 1, startsLine := true,
    spelling := "z" }

/-- Context of the termination witness: one matching token then eof on
both streams. -/
def exC8ctx : AlignCtx :=
  ⟨[exC8z, { kind := TokKind.eof, offset := 1 }],
   [exC8z, { kind := TokKind.eof, offset := 1 }]⟩

/-- Initial state of the termination witness. -/
def exC8s : AlignState := ⟨1, exC8z, 1, exC8z, []⟩

/-- The state after one (matching) iteration of the termination witness. -/
def exC8s2 : AlignState :=
  ⟨2, { kind := TokKind.eof, offset := 1 }, 2, { kind := TokKind.eof, offset := 1 }, []⟩

/-- The cursor invariant the loop maintains: each cursor is one past its
current token, and both stay within their lists. -/
def stateInv (ctx : AlignCtx) (s : AlignState) : Prop :=
  1 ≤ s.curRawTok ∧ s.curRawTok ≤ ctx.rawTokens.length ∧
  ctx.rawTokens[s.curRawTok - 1]? = some s.rawTok ∧
  1 ≤ s.ppIdx ∧ s.ppIdx ≤ ctx.ppTokens.length ∧
  ctx.ppTokens[s.ppIdx - 1]? = some s.ppTok

/-- Well-formed raw stream for the overrun-safety witness. -/
def exC9raw : List Token :=
  [{ kind := TokKind.identifier, ident := some "x", offset := 0, length := 1, startsLine := true,
     spelling := "x" },
   { kind := TokKind.eof, offset := 5 }]

/-- Well-formed preprocessed stream for the overrun-safety witness. -/
def exC9pp : List Token :=
  [{ kind := TokKind.identifier, ident := some "x", offset := 0, length := 1, startsLine := true,
     spelling := "x" },
   { kind := TokKind.eof, offset := 5 }]

/-- The edits not issued by an insertion run: directive markers and
deletion-run openers/closers, all anchored to the raw cursor. -/
def nonInsertionEdits (es : List Edit) : List Edit :=
  es.filter (fun e => !(e.src == EditSrc.insertion))

/-- The final state of the run over `exC2raw` / `exC2pp`. -/
def exC2final : AlignState :=
  ⟨4, { kind := TokKind.eof, offset := 9 }, 2, { kind := TokKind.eof, offset := 9 },
   [⟨0, " /*", EditAnchor.insertAfter, EditSrc.delOpen⟩,
    ⟨1, "*/", EditAnchor.insertBefore, EditSrc.delClose⟩]⟩

/-- The preprocessed stream of a file with no macro invocations and no
directives: exactly the raw tokens minus the comments. -/
def noCommentPP (raw : List Token) : List Token :=
  raw.filter (fun t => !(t.kind == TokKind.comment))

/-- No two adjacent comment tokens. -/
def noAdjacentComments : List Token → Bool
  | [] => true
  | [_] => true
  | a :: b :: rest =>
    !(a.kind == TokKind.comment && b.kind == TokKind.comment) &&
      noAdjacentComments (b :: rest)

/-- Raw stream of a macro-free file containing only `#warning x`. -/
def exC7raw : List Token :=
  [{ kind := TokKind.hash, offset := 0, length := 1, startsLine := true, spelling := "#" },
   { kind := TokKind.identifier, ident := some "warning", offset := 1, length := 7,
     spelling := "warning" },
   { kind := TokKind.identifier, ident := some "x", offset := 9, length := 1,
     hasLeadingSpace := true, spelling := "x" },
   { kind := TokKind.eof, offset := 12 }]

/-- Preprocessed stream of `exC7raw`: the directive produces no tokens. -/
def exC7pp : List Token :=
  [{ kind := TokKind.eof, offset := 12 }]

/-- A macro-free, directive-free raw stream (identifier, comment, eof)
for the no-edit witness. -/
def exC7wraw : List Token :=
  [{ kind := TokKind.identifier, ident := some "z", offset := 0, length := 1, startsLine := true,
     spelling := "z" },
   { kind := TokKind.comment, offset := 2, length := 5, hasLeadingSpace := true,
     spelling := "/*c*/" },
   { kind := TokKind.eof, offset := 8 }]

/-- Decomposition of a successful `GetNextRawTok`: the entry assertion
held, the cursor advanced by one (no comment skipped) or two (one comment
skipped), stayed within the list, and the returned token is the one just
before the new cursor. -/
theorem getNext_inv {raw : List Token} {cur : Nat} {b : Bool} {t : Token} {c : Nat}
    (h : GetNextRawTok raw cur b = some (t, c)) :
    cur < raw.length ∧ c ≤ raw.length ∧ cur < c ∧ raw[c - 1]? = some t ∧
      ((c = cur + 1 ∧ raw[cur]? = some t ∧ ¬(b = false ∧ t.kind = TokKind.comment)) ∨
        (c = cur + 2 ∧ b = false ∧
          ∃ t0, raw[cur]? = some t0 ∧ t0.kind = TokKind.comment)) := by
  unfold GetNextRawTok at h
  split at h
  · exact absurd h (by simp)
  next t0 h0 =>
    have hcur : cur < raw.length := by
      by_contra hc
      rw [List.getElem?_eq_none (Nat.le_of_not_lt hc)] at h0
      simp at h0
    split at h
    next hcond =>
      split at h
      · exact absurd h (by simp)
      next t1 h1 =>
        have h2 : cur + 1 < raw.length := by
          by_contra hc
          rw [List.getElem?_eq_none (Nat.le_of_not_lt hc)] at h1
          simp at h1
        have hb : b = false ∧ t0.kind = TokKind.comment := by
          simp only [Bool.and_eq_true, Bool.not_eq_eq_eq_not, Bool.not_true, beq_iff_eq]
            at hcond
          exact ⟨by simpa using hcond.1, hcond.2⟩
        obtain ⟨rfl, rfl⟩ : t1 = t ∧ cur + 2 = c := by
          constructor <;> [exact congrArg (fun p => (Prod.fst p)) (Option.some.inj h);
            exact congrArg (fun p => (Prod.snd p)) (Option.some.inj h)]
        exact ⟨hcur, by omega, by omega, by simpa using h1,
          Or.inr ⟨rfl, hb.1, t0, h0, hb.2⟩⟩
    next hcond =>
      obtain ⟨rfl, rfl⟩ : t0 = t ∧ cur + 1 = c := by
        constructor <;> [exact congrArg (fun p => (Prod.fst p)) (Option.some.inj h);
          exact congrArg (fun p => (Prod.snd p)) (Option.some.inj h)]
      refine ⟨hcur, by omega, by omega, by simpa using h0, Or.inl ⟨rfl, h0, ?_⟩⟩
      rintro ⟨rfl, hk⟩
      simp [hk] at hcond

/-- C5: `isSameToken` returns true exactly when the two tokens have the
same kind and the same (possibly null) interned-symbol reference, or both
carry the same non-null interned-symbol reference regardless of kind. -/
theorem isSameToken_spec (RawTok PPTok : Token) :
    isSameToken RawTok PPTok = true ↔
      ((PPTok.kind = RawTok.kind ∧ PPTok.ident = RawTok.ident) ∨
        ∃ s, RawTok.ident = some s ∧ PPTok.ident = some s) := by
  unfold isSameToken
  rcases hp : PPTok.ident with _ | b <;> rcases hr : RawTok.ident with _ | a <;>
    by_cases hk : PPTok.kind = RawTok.kind <;>
      simp [hp, hr, hk]

/-- C10: with `ReturnComment = false`, `GetNextRawTok` skips at most one
comment: on two adjacent comments it returns the second comment (a
comment is returned even though comment-skipping was requested). -/
theorem getNextRawTok_adjacent_comments {raw : List Token} {i : Nat} {c1 c2 : Token}
    (h1 : raw[i]? = some c1) (hk1 : c1.kind = TokKind.comment)
    (h2 : raw[i + 1]? = some c2) (hk2 : c2.kind = TokKind.comment) :
    GetNextRawTok raw i false = some (c2, i + 2) ∧ c2.kind = TokKind.comment := by
  refine ⟨?_, hk2⟩
  unfold GetNextRawTok
  rw [h1]
  simp [hk1, h2]

/-- Witness for C10 at a concrete stream of two adjacent comments. -/
theorem getNextRawTok_adjacent_comments_witness :
    GetNextRawTok twoCommentsRaw 0 false = some (twoCommentsSecond, 2) ∧
      twoCommentsSecond.kind = TokKind.comment :=
  @getNextRawTok_adjacent_comments twoCommentsRaw 0 twoCommentsFirst twoCommentsSecond
    (by decide) (by decide) (by decide) (by decide)

/-- C2 (counterexample): in the run over `exC2raw` / `exC2pp` the
deletion run starting at `a` meets the comment at offset 2 and consumes
it, yet the `*/` closer is issued at offset 1 (the end of `a`, the last
non-comment deleted token), strictly before the comment: the comment is
not between the opener and the closer, contradicting the claim that the
consumed comment ends up inside the comment-bracketed span. -/
theorem deletion_comment_outside_cex :
    (alignRun exC2raw exC2pp).map (fun st => st.edits) =
      some [⟨0, " /*", EditAnchor.insertAfter, EditSrc.delOpen⟩,
            ⟨1, "*/", EditAnchor.insertBefore, EditSrc.delClose⟩] ∧
    exC2comment.kind = TokKind.comment ∧ (1 : Nat) < exC2comment.offset := by
  decide

/-- C2 (amended): if, during a deletion run, the raw token fetched next
(with comments not skipped) is a comment, the run terminates immediately:
the cursor steps past the comment (one further comment-skipping fetch
supplies the next current token), and `EndPos` — where the `*/` closer is
issued — is the end of the current (pre-comment) token, so the comment is
left outside (after) the closed span rather than inside it. -/
theorem deletionLoop_comment_stops {raw : List Token} {PPTok ct RawTok t2 : Token}
    {PPOffs RawOffs cur c1 c2 fuel : Nat}
    (hget : GetNextRawTok raw cur true = some (ct, c1)) (hc : ct.kind = TokKind.comment)
    (hget2 : GetNextRawTok raw c1 false = some (t2, c2)) :
    deletionLoop raw PPTok PPOffs (fuel + 1) RawTok RawOffs cur =
      some (RawOffs + RawTok.length, t2, c2) := by
  unfold deletionLoop
  rw [hget]
  simp [hc, hget2]

/-- Witness for the amended C2 at the `exC2raw` deletion run: the run
from `a` (cursor 1) stops at the comment, and the closer position is the
end of `a` (offset 1), with `x` left current at cursor 3. -/
theorem deletionLoop_comment_stops_witness :
    deletionLoop exC2raw exC2xTok 8 5 exC2aTok 0 1 = some (0 + exC2aTok.length, exC2xTok, 3) :=
  @deletionLoop_comment_stops exC2raw exC2xTok exC2comment exC2aTok exC2xTok 8 0 1 2 3 4
    (by decide) (by decide) (by decide)

/-- C4 (counterexample): with the macro `A` (defined in a header)
expanding to `B C`, used on its own line and followed by `y`, the run
issues the deletion-run edits at offsets 10 and 11 and only then the
insertion-run edit back at offset 10: the emission-order offsets are
`[10, 11, 10]`, which is not non-decreasing. -/
theorem edit_offsets_not_monotone_cex :
    (alignRun exC4raw exC4pp).map (fun st => st.edits.map (fun e => e.offset)) =
      some [10, 11, 10] ∧
    (alignRun exC4raw exC4pp).map (fun st => offsetsNonDecreasing st.edits) = some false := by
  decide

/-- A successful `directiveEdit` issues the single `//` marker at the
`#`'s offset exactly under `directiveWantsMarker`, else nothing. -/
theorem directiveEdit_spec {raw : List Token} {cur : Nat} {nt : Token} {hashOffs : Nat}
    {es : List Edit} (h : directiveEdit raw cur nt hashOffs = some es) :
    es = if directiveWantsMarker raw cur nt then
      [⟨hashOffs, "//", EditAnchor.insertAfter, EditSrc.directive⟩] else [] := by
  unfold directiveEdit at h
  unfold directiveWantsMarker
  split at h
  next hident =>
    split at h
    · exact absurd h (by simp)
    next nm hid =>
      split at h
      next hw =>
        simp only [Option.some.injEq] at h
        simp [hident, hid, hw, beq_iff_eq, ← h]
      next hw =>
        split at h
        next hp =>
          split at h
          · exact absurd h (by simp)
          next nt2 h1 =>
            split at h
            next hident2 =>
              split at h
              · exact absurd h (by simp)
              next nm2 hid2 =>
                split at h
                next hm =>
                  simp only [Option.some.injEq] at h
                  simp [hident, hid, hw, hp, h1, hident2, hid2, hm, beq_iff_eq, ← h]
                next hm =>
                  simp only [Option.some.injEq] at h
                  simp [hident, hid, hw, hp, h1, hident2, hid2, hm, beq_iff_eq, ← h]
            next hident2 =>
              simp only [Option.some.injEq] at h
              simp [hident, hid, hw, hp, h1, hident2, beq_iff_eq, ← h]
        next hp =>
          simp only [Option.some.injEq] at h
          simp [hident, hid, hw, hp, beq_iff_eq, ← h]
  next hident =>
    simp only [Option.some.injEq] at h
    simp [hident, ← h]

/-- C3: at a line-initial `#` the directive branch issues exactly one
edit — the two-character `//` inserted (insert-after) at the `#` token's
file offset — precisely when the next raw token is the identifier
`warning`, or the identifier `pragma` immediately followed by the
identifier `mark` (`directiveWantsMarker`); any other directive line
issues no edit at all (so its bytes are untouched), and the expansion
stream is not consulted: only the raw cursor moves, past the line. -/
theorem directive_line_edits {ctx : AlignCtx} {s : AlignState} {nt : Token}
    {es : List Edit} {tc tc2 : Token × Nat}
    (hh : s.rawTok.kind = TokKind.hash) (hsl : s.rawTok.startsLine = true)
    (hmf : s.ppTok.fromMainFile = true)
    (hnt : ctx.rawTokens[s.curRawTok]? = some nt)
    (hde : directiveEdit ctx.rawTokens s.curRawTok nt s.rawTok.offset = some es)
    (hget : GetNextRawTok ctx.rawTokens s.curRawTok false = some tc)
    (hskip : skipDirectiveLine ctx.rawTokens (ctx.rawTokens.length + 1) tc.1 tc.2 =
      some tc2) :
    alignStep ctx s = StepResult.next
      { s with
        rawTok := tc2.1
        curRawTok := tc2.2
        edits := s.edits ++
          (if directiveWantsMarker ctx.rawTokens s.curRawTok nt then
            [⟨s.rawTok.offset, "//", EditAnchor.insertAfter, EditSrc.directive⟩]
          else []) } := by
  obtain rfl : es = _ := directiveEdit_spec hde
  have hne : ¬(s.rawTok.kind = TokKind.eof ∧ s.ppTok.kind = TokKind.eof) := by
    rw [hh]; simp
  unfold alignStep
  rw [if_neg hne, if_neg (by rw [hmf]; simp), if_pos ⟨hh, hsl⟩]
  simp only [hnt, hde, hget, hskip]

/-- Witness for C3: on the raw stream `#warning` the step issues exactly
the `//` marker at offset 0 and skips to eof. -/
theorem directive_line_edits_witness :
    alignStep exC3ctx exC3s = StepResult.next
      { exC3s with
        rawTok := exC3eofTok
        curRawTok := 3
        edits := exC3s.edits ++
          (if directiveWantsMarker exC3ctx.rawTokens exC3s.curRawTok exC3warn then
            [⟨exC3s.rawTok.offset, "//", EditAnchor.insertAfter, EditSrc.directive⟩]
          else []) } :=
  @directive_line_edits exC3ctx exC3s exC3warn
    [⟨0, "//", EditAnchor.insertAfter, EditSrc.directive⟩] (exC3warn, 2) (exC3eofTok, 3)
    (by decide) (by decide) (by decide) (by decide) (by decide) (by decide) (by decide)

/-- A successful insertion loop accumulates, for each consumed expansion
token (exactly those up to the first whose offset reaches the raw
offset), one space followed by its spelling. -/
theorem insertionLoop_spec {pp : List Token} {RawOffs : Nat} :
    ∀ {fuel : Nat} {PPTok : Token} {i : Nat} {acc a2 : String} {t2 : Token} {i2 : Nat},
    insertionLoop pp RawOffs fuel PPTok i acc = some (a2, t2, i2) →
    a2 = expandAcc acc ((PPTok :: pp.drop i).takeWhile
      (fun x => decide (x.offset < RawOffs))) := by
  intro fuel
  induction fuel with
  | zero =>
    intro PPTok i acc a2 t2 i2 h
    exact absurd h (by simp [insertionLoop])
  | succ n ih =>
    intro PPTok i acc a2 t2 i2 h
    unfold insertionLoop at h
    split at h
    next hcond =>
      split at h
      · exact absurd h (by simp)
      next t h1 =>
        have hi : i < pp.length := by
          by_contra hc
          rw [List.getElem?_eq_none (Nat.le_of_not_lt hc)] at h1
          simp at h1
        have ht : pp[i] = t := by
          rcases List.getElem?_eq_some.1 h1 with ⟨h2, h3⟩
          exact h3
        have hdrop : pp.drop i = t :: pp.drop (i + 1) := by
          rw [List.drop_eq_getElem_cons hi, ht]
        rw [List.takeWhile_cons, if_pos (by simpa using hcond)]
        rw [hdrop]
        exact ih h
    next hcond =>
      obtain ⟨rfl, rfl, rfl⟩ : acc = a2 ∧ PPTok = t2 ∧ i = i2 := by
        simpa using h
      rw [List.takeWhile_cons, if_neg (by simpa using hcond)]
      rfl

/-- C1: when the current expansion token's resolved offset is strictly
below the raw token's offset (and no earlier branch applies), the step
performs one insertion run: it accumulates one space plus the rendered
spelling of each successive expansion token whose offset stays below the
raw offset, appends a trailing space, and issues the whole string as a
single insert-before edit at the run's starting offset (which is strictly
before the raw token's offset), leaving the raw cursor and raw token
unchanged. -/
theorem insertion_run_single_edit {ctx : AlignCtx} {s : AlignState} {a2 : String}
    {t2 : Token} {i2 : Nat}
    (hne : ¬(s.rawTok.kind = TokKind.eof ∧ s.ppTok.kind = TokKind.eof))
    (hmf : s.ppTok.fromMainFile = true)
    (hnh : ¬(s.rawTok.kind = TokKind.hash ∧ s.rawTok.startsLine = true))
    (hlt : s.ppTok.offset < s.rawTok.offset)
    (hins : insertionLoop ctx.ppTokens s.rawTok.offset (ctx.ppTokens.length + 1)
      s.ppTok s.ppIdx "" = some (a2, t2, i2)) :
    alignStep ctx s = StepResult.next
      { s with
        ppTok := t2
        ppIdx := i2
        edits := s.edits ++
          [⟨s.ppTok.offset, a2 ++ " ", EditAnchor.insertBefore, EditSrc.insertion⟩] } ∧
    a2 = expandAcc "" ((s.ppTok :: ctx.ppTokens.drop s.ppIdx).takeWhile
      (fun x => decide (x.offset < s.rawTok.offset))) := by
  refine ⟨?_, insertionLoop_spec hins⟩
  unfold alignStep
  rw [if_neg hne, if_neg (by rw [hmf]; simp), if_neg hnh,
    if_neg (by rintro ⟨he, -⟩; omega), if_neg (by omega)]
  simp only [hins]

/-- Witness for C1: an insertion run that consumes two expansion tokens
(offsets 2 and 3, both below the raw offset 5) and stops at offset 5,
issuing the single edit `" m1 m2 "` at offset 2. -/
theorem insertion_run_single_edit_witness :
    alignStep exC1ctx exC1s = StepResult.next
      { exC1s with
        ppTok := exC1stop
        ppIdx := 2
        edits := exC1s.edits ++
          [⟨exC1s.ppTok.offset, " m1 m2" ++ " ", EditAnchor.insertBefore,
            EditSrc.insertion⟩] } ∧
    " m1 m2" = expandAcc "" ((exC1s.ppTok :: exC1ctx.ppTokens.drop exC1s.ppIdx).takeWhile
      (fun x => decide (x.offset < exC1s.rawTok.offset))) :=
  @insertion_run_single_edit exC1ctx exC1s " m1 m2" exC1stop 2
    (by decide) (by decide) (by decide) (by decide) (by decide)

/-- C6: a deletion run issues exactly two edits: at the offset of the
first deleted raw token an insert-after opener — the three-character
`" /*"` when the token has no leading whitespace, the two-character
`"/*"` when it has — and at the `EndPos` where the run ended the
two-character insert-before closer `"*/"`. -/
theorem deletion_run_two_edits {ctx : AlignCtx} {s : AlignState} {EndPos : Nat}
    {rt : Token} {c : Nat}
    (hne : ¬(s.rawTok.kind = TokKind.eof ∧ s.ppTok.kind = TokKind.eof))
    (hmf : s.ppTok.fromMainFile = true)
    (hnh : ¬(s.rawTok.kind = TokKind.hash ∧ s.rawTok.startsLine = true))
    (hnm : ¬(s.ppTok.offset = s.rawTok.offset ∧ isSameToken s.rawTok s.ppTok = true))
    (hle : s.rawTok.offset ≤ s.ppTok.offset)
    (hdel : deletionLoop ctx.rawTokens s.ppTok s.ppTok.offset (ctx.rawTokens.length + 1)
      s.rawTok s.rawTok.offset s.curRawTok = some (EndPos, rt, c)) :
    alignStep ctx s = StepResult.next
      { s with
        rawTok := rt
        curRawTok := c
        edits := s.edits ++
          [⟨s.rawTok.offset, if s.rawTok.hasLeadingSpace then "/*" else " /*",
            EditAnchor.insertAfter, EditSrc.delOpen⟩,
           ⟨EndPos, "*/", EditAnchor.insertBefore, EditSrc.delClose⟩] } := by
  unfold alignStep
  rw [if_neg hne, if_neg (by rw [hmf]; simp), if_neg hnh, if_neg hnm, if_pos hle]
  simp only [hdel]

/-- Witness for C6: the run deleting `P` (no leading whitespace, so the
opener is `" /*"`) that ends before the line-initial `q`, with the closer
at offset 1, the end of `P`. -/
theorem deletion_run_two_edits_witness :
    alignStep exC6ctx exC6s = StepResult.next
      { exC6s with
        rawTok := exC6q
        curRawTok := 2
        edits := exC6s.edits ++
          [⟨exC6s.rawTok.offset,
            if exC6s.rawTok.hasLeadingSpace then "/*" else " /*",
            EditAnchor.insertAfter, EditSrc.delOpen⟩,
           ⟨1, "*/", EditAnchor.insertBefore, EditSrc.delClose⟩] } :=
  @deletion_run_two_edits exC6ctx exC6s 1 exC6q 2
    (by decide) (by decide) (by decide) (by decide) (by decide) (by decide)

/-- Bounds, final position and exit condition of a successful directive
line skip. -/
theorem skipDirectiveLine_inv {raw : List Token} :
    ∀ {fuel : Nat} {t : Token} {cur : Nat} {t2 : Token} {c2 : Nat},
    skipDirectiveLine raw fuel t cur = some (t2, c2) →
    cur ≤ c2 ∧ (c2 = cur ∨ c2 ≤ raw.length) ∧
      (raw[cur - 1]? = some t → raw[c2 - 1]? = some t2) ∧
      (t2.startsLine = true ∨ t2.kind = TokKind.eof) := by
  intro fuel
  induction fuel with
  | zero =>
    intro t cur t2 c2 h
    exact absurd h (by simp [skipDirectiveLine])
  | succ n ih =>
    intro t cur t2 c2 h
    unfold skipDirectiveLine at h
    split at h
    next hcond =>
      split at h
      · exact absurd h (by simp)
      next tc h1 =>
        obtain ⟨hlt, hle, hlt2, hpos, _⟩ := getNext_inv h1
        obtain ⟨ih1, ih2, ih3, ih4⟩ := ih h
        exact ⟨by omega, by omega, fun _ => ih3 hpos, ih4⟩
    next hcond =>
      obtain ⟨rfl, rfl⟩ : t = t2 ∧ cur = c2 := by simpa using h
      refine ⟨le_refl _, Or.inl rfl, fun hp => hp, ?_⟩
      by_cases hb : t.startsLine = true
      · exact Or.inl hb
      · have hbf : t.startsLine = false := by
          cases hstl : t.startsLine
          · rfl
          · exact absurd hstl hb
        right
        by_contra hke
        exact hcond ⟨hbf, hke⟩

/-- Bounds and final position of a successful deletion-run loop. -/
theorem deletionLoop_inv {raw : List Token} {PPTok : Token} {PPOffs : Nat} :
    ∀ {fuel : Nat} {RawTok : Token} {RawOffs cur EndPos : Nat} {t2 : Token} {c2 : Nat},
    deletionLoop raw PPTok PPOffs fuel RawTok RawOffs cur = some (EndPos, t2, c2) →
    cur < c2 ∧ c2 ≤ raw.length ∧ raw[c2 - 1]? = some t2 := by
  intro fuel
  induction fuel with
  | zero =>
    intro RawTok RawOffs cur EndPos t2 c2 h
    exact absurd h (by simp [deletionLoop])
  | succ n ih =>
    intro RawTok RawOffs cur EndPos t2 c2 h
    unfold deletionLoop at h
    split at h
    · exact absurd h (by simp)
    next tc h1 =>
      obtain ⟨_, hle1, hlt1, hpos1, _⟩ := getNext_inv h1
      split at h
      next hcom =>
        split at h
        · exact absurd h (by simp)
        next tc2 h2 =>
          obtain ⟨u2, d2⟩ := tc2
          obtain ⟨_, hle2, hlt2, hpos2, _⟩ := getNext_inv h2
          obtain ⟨he, h3⟩ : RawOffs + RawTok.length = EndPos ∧ (u2, d2) = (t2, c2) := by
            simpa using h
          obtain ⟨rfl, rfl⟩ := Prod.mk.inj h3
          exact ⟨by omega, hle2, hpos2⟩
      next hcom =>
        split at h
        next hcond =>
          obtain ⟨ihlt, ihle, ihpos⟩ := ih h
          exact ⟨by omega, ihle, ihpos⟩
        next hcond =>
          obtain ⟨he, h3⟩ : RawOffs + RawTok.length = EndPos ∧ (tc.1, tc.2) = (t2, c2) := by
            simpa using h
          obtain ⟨h4, h5⟩ := Prod.mk.inj h3
          subst h4
          subst h5
          exact ⟨by omega, hle1, hpos1⟩

/-- Bounds and final position of a successful insertion-run loop. -/
theorem insertionLoop_inv {pp : List Token} {RawOffs : Nat} :
    ∀ {fuel : Nat} {PPTok : Token} {i : Nat} {acc a2 : String} {t2 : Token} {i2 : Nat},
    insertionLoop pp RawOffs fuel PPTok i acc = some (a2, t2, i2) →
    i ≤ i2 ∧ (i2 = i ∨ i2 ≤ pp.length) ∧
      (pp[i - 1]? = some PPTok → pp[i2 - 1]? = some t2) ∧
      (PPTok.offset < RawOffs → i < i2 ∧ i2 ≤ pp.length) := by
  intro fuel
  induction fuel with
  | zero =>
    intro PPTok i acc a2 t2 i2 h
    exact absurd h (by simp [insertionLoop])
  | succ n ih =>
    intro PPTok i acc a2 t2 i2 h
    unfold insertionLoop at h
    split at h
    next hlt =>
      split at h
      · exact absurd h (by simp)
      next t h1 =>
        have hi : i < pp.length := by
          by_contra hc
          rw [List.getElem?_eq_none (Nat.le_of_not_lt hc)] at h1
          simp at h1
        obtain ⟨ih1, ih2, ih3, _⟩ := ih h
        refine ⟨by omega, by omega, fun _ => ih3 (by simpa using h1), fun _ => ⟨by omega, by omega⟩⟩
    next hlt =>
      obtain ⟨rfl, rfl, rfl⟩ : acc = a2 ∧ PPTok = t2 ∧ i = i2 := by simpa using h
      exact ⟨le_refl _, Or.inl rfl, fun hp => hp, fun hc => absurd hc hlt⟩

/-- Every continuing iteration of the main loop moves neither cursor
backwards, strictly advances at least one of them, and strictly decreases
the joint distance to the stream ends. -/
theorem alignStep_progress {ctx : AlignCtx} {s s2 : AlignState}
    (h : alignStep ctx s = StepResult.next s2) :
    s.curRawTok ≤ s2.curRawTok ∧ s.ppIdx ≤ s2.ppIdx ∧
      (s.curRawTok < s2.curRawTok ∨ s.ppIdx < s2.ppIdx) ∧
      alignMeasure ctx s2 < alignMeasure ctx s := by
  unfold alignStep at h
  split at h
  · exact absurd h (by simp)
  next hne =>
    split at h
    next hforeign =>
      split at h
      · exact absurd h (by simp)
      next pt hpt =>
        have hip : s.ppIdx < ctx.ppTokens.length := by
          by_contra hc
          rw [List.getElem?_eq_none (Nat.le_of_not_lt hc)] at hpt
          simp at hpt
        cases h
        refine ⟨?_, ?_, ?_, ?_⟩ <;> simp [alignMeasure] <;> omega
    next hforeign =>
      split at h
      next hhash =>
        split at h
        · exact absurd h (by simp)
        next nt hnt =>
          split at h
          · exact absurd h (by simp)
          next es hde =>
            split at h
            · exact absurd h (by simp)
            next tc hget =>
              split at h
              · exact absurd h (by simp)
              next tc2 hskip =>
                obtain ⟨h1lt, h1le, h1lt2, _, _⟩ := getNext_inv hget
                obtain ⟨h2a, h2b, _, _⟩ := skipDirectiveLine_inv hskip
                cases h
                refine ⟨?_, ?_, ?_, ?_⟩ <;> simp [alignMeasure] <;> omega
      next hhash =>
        split at h
        next hmatch =>
          split at h
          · exact absurd h (by simp)
          next tc hget =>
            split at h
            · exact absurd h (by simp)
            next pt hpt =>
              obtain ⟨h1lt, h1le, h1lt2, _, _⟩ := getNext_inv hget
              have hip : s.ppIdx < ctx.ppTokens.length := by
                by_contra hc
                rw [List.getElem?_eq_none (Nat.le_of_not_lt hc)] at hpt
                simp at hpt
              cases h
              refine ⟨?_, ?_, ?_, ?_⟩ <;> simp [alignMeasure] <;> omega
        next hmatch =>
          split at h
          next hdel =>
            split at h
            · exact absurd h (by simp)
            next edc hdelLoop =>
              obtain ⟨ep, rt, c2⟩ := edc
              obtain ⟨hlt, hle, _⟩ := deletionLoop_inv hdelLoop
              cases h
              refine ⟨?_, ?_, ?_, ?_⟩ <;> simp [alignMeasure] <;> omega
          next hdel =>
            split at h
            · exact absurd h (by simp)
            next ati hins =>
              obtain ⟨a2, t2, i2⟩ := ati
              have hlt : s.ppTok.offset < s.rawTok.offset := by omega
              obtain ⟨_, _, _, hstrict⟩ := insertionLoop_inv hins
              obtain ⟨hia, hib⟩ := hstrict hlt
              cases h
              refine ⟨?_, ?_, ?_, ?_⟩ <;> simp [alignMeasure] <;> omega

/-- The main loop returns `done` exactly when both current tokens are
end-of-file (the `while` condition of line 113), and then changes
nothing. -/
theorem alignStep_done_iff {ctx : AlignCtx} {s s2 : AlignState} :
    alignStep ctx s = StepResult.done s2 ↔
      s.rawTok.kind = TokKind.eof ∧ s.ppTok.kind = TokKind.eof ∧ s2 = s := by
  constructor
  · intro h
    unfold alignStep at h
    split at h
    next hcond => exact ⟨hcond.1, hcond.2, (StepResult.done.inj h).symm⟩
    next hcond =>
      exfalso
      iterate 8 (all_goals try split at h)
      all_goals exact StepResult.noConfusion h
  · rintro ⟨h1, h2, rfl⟩
    unfold alignStep
    rw [if_pos ⟨h1, h2⟩]

/-- Once the fuel exceeds the measure, the fueled loop's result no longer
depends on the fuel: the loop terminates. -/
theorem alignLoopF_stable {ctx : AlignCtx} :
    ∀ {f1 : Nat} {f2 : Nat} {s : AlignState},
    alignMeasure ctx s < f1 → alignMeasure ctx s < f2 →
    alignLoopF ctx f1 s = alignLoopF ctx f2 s := by
  intro f1
  induction f1 with
  | zero =>
    intro f2 s h1 h2
    omega
  | succ n ih =>
    intro f2 s h1 h2
    cases f2 with
    | zero => omega
    | succ m =>
      show (match alignStep ctx s with
        | StepResult.done s2 => some s2
        | StepResult.fail => none
        | StepResult.next s2 => alignLoopF ctx n s2) =
        (match alignStep ctx s with
        | StepResult.done s2 => some s2
        | StepResult.fail => none
        | StepResult.next s2 => alignLoopF ctx m s2)
      cases hstep : alignStep ctx s with
      | done s2 => rfl
      | fail => rfl
      | next s2 =>
        have hp := alignStep_progress hstep
        exact ih (by omega) (by omega)

/-- C8: the main alignment loop terminates on every input: no iteration
moves a cursor backwards, every continuing iteration strictly advances at
least one of the two cursors (so the fueled loop is fuel-independent once
the fuel exceeds the remaining joint distance `alignMeasure`), and the
loop exits exactly when both the current raw token and the current
expansion token are end-of-file. -/
theorem alignment_loop_terminates (ctx : AlignCtx) (s : AlignState) :
    (∀ s2, alignStep ctx s = StepResult.next s2 →
      s.curRawTok ≤ s2.curRawTok ∧ s.ppIdx ≤ s2.ppIdx ∧
        (s.curRawTok < s2.curRawTok ∨ s.ppIdx < s2.ppIdx)) ∧
    (∀ s2, alignStep ctx s = StepResult.done s2 ↔
      s.rawTok.kind = TokKind.eof ∧ s.ppTok.kind = TokKind.eof ∧ s2 = s) ∧
    (∀ f1 f2, alignMeasure ctx s < f1 → alignMeasure ctx s < f2 →
      alignLoopF ctx f1 s = alignLoopF ctx f2 s) :=
  ⟨fun _ h => ⟨(alignStep_progress h).1, (alignStep_progress h).2.1,
      (alignStep_progress h).2.2.1⟩,
   fun _ => alignStep_done_iff,
   fun _ _ h1 h2 => alignLoopF_stable h1 h2⟩

/-- Witness for C8 at a two-token context: the first (matching) iteration
advances both cursors, and the loop result is fuel-independent. -/
theorem alignment_loop_terminates_witness :
    (exC8s.curRawTok ≤ exC8s2.curRawTok ∧ exC8s.ppIdx ≤ exC8s2.ppIdx ∧
      (exC8s.curRawTok < exC8s2.curRawTok ∨ exC8s.ppIdx < exC8s2.ppIdx)) ∧
    alignLoopF exC8ctx 5 exC8s = alignLoopF exC8ctx 9 exC8s :=
  ⟨(alignment_loop_terminates exC8ctx exC8s).1 exC8s2 (by decide),
   (alignment_loop_terminates exC8ctx exC8s).2.2 5 9 (by decide) (by decide)⟩

/-- A nonempty list's `getLastD` sits at index `length - 1`. -/
theorem getLastD_getElem {l : List Token} (hne : l ≠ []) :
    l[l.length - 1]? = some (l.getLastD dummyTok) := by
  rw [List.getLastD_eq_getLast? dummyTok l, ← List.getLast?_eq_getElem? l]
  rcases hl : l.getLast? with _ | t
  · exact absurd (List.getLast?_eq_none_iff.1 hl) hne
  · rfl

/-- In a list whose eof sits only at the end, a non-eof member is not the
last element. -/
theorem not_eof_lt_of_wf {l : List Token} (hne : l ≠ [])
    (hlast : (l.getLastD dummyTok).kind = TokKind.eof)
    {k : Nat} {t : Token} (hk : l[k]? = some t) (ht : t.kind ≠ TokKind.eof) :
    k + 1 < l.length := by
  rcases List.getElem?_eq_some.1 hk with ⟨hklen, hkt⟩
  by_contra hc
  have hkl : k = l.length - 1 := by omega
  have h2 := getLastD_getElem hne
  rw [← hkl, hk] at h2
  exact ht (by rw [Option.some.inj h2]; exact hlast)

/-- In a list whose eof sits only at the end, an eof member is the last
element. -/
theorem eof_last_of_wf {l : List Token} (hne : l ≠ [])
    (hmid : ∀ i, (h : i < l.length) → i + 1 < l.length → (l.get ⟨i, h⟩).kind ≠ TokKind.eof)
    {k : Nat} {t : Token} (hk : l[k]? = some t) (ht : t.kind = TokKind.eof) :
    k = l.length - 1 ∧ t = l.getLastD dummyTok := by
  rcases List.getElem?_eq_some.1 hk with ⟨hklen, hkt⟩
  by_cases hc : k + 1 < l.length
  · have := hmid k hklen hc
    rw [List.get_eq_getElem, hkt] at this
    exact absurd ht this
  · have hkl : k = l.length - 1 := by omega
    have h2 := getLastD_getElem hne
    rw [← hkl, hk] at h2
    exact ⟨hkl, Option.some.inj h2⟩

/-- Tokens of different kinds with a null identifier reference on either
side are never the same token. -/
theorem isSameToken_ident_none {RawTok PPTok : Token} (hk : PPTok.kind ≠ RawTok.kind)
    (h : RawTok.ident = none ∨ PPTok.ident = none) :
    isSameToken RawTok PPTok = false := by
  unfold isSameToken
  rcases hp : PPTok.ident with _ | x <;> rcases hr : RawTok.ident with _ | y <;>
    rcases h with h | h <;> simp_all [beq_iff_eq]

/-- With a well-formed raw list, fetching from a position whose current
token is not eof never trips the assertion. -/
theorem getNext_safe {raw : List Token} (hwf : wfRaw raw) {cur : Nat} {t : Token} (b : Bool)
    (h1 : 1 ≤ cur) (hc : raw[cur - 1]? = some t) (ht : t.kind ≠ TokKind.eof) :
    ∃ t2 c2, GetNextRawTok raw cur b = some (t2, c2) := by
  have hcur : cur < raw.length := by
    have := not_eof_lt_of_wf hwf.1 hwf.2.1 hc ht
    omega
  have ht0 : raw[cur]? = some raw[cur] := List.getElem?_eq_getElem hcur
  unfold GetNextRawTok
  simp only [ht0]
  by_cases hcm : (!b && raw[cur].kind == TokKind.comment) = true
  · rw [if_pos hcm]
    have hkc : raw[cur].kind = TokKind.comment := by
      simp only [Bool.and_eq_true, beq_iff_eq] at hcm
      exact hcm.2
    have ht0ne : raw[cur].kind ≠ TokKind.eof := by
      rw [hkc]
      simp
    have hlt2 : cur + 1 < raw.length := not_eof_lt_of_wf hwf.1 hwf.2.1 ht0 ht0ne
    rw [List.getElem?_eq_getElem hlt2]
    exact ⟨_, _, rfl⟩
  · rw [if_neg hcm]
    exact ⟨_, _, rfl⟩

/-- The initial fetch (line 99) never trips the assertion on a
well-formed raw list. -/
theorem getNext_zero_safe {raw : List Token} (hwf : wfRaw raw) :
    ∃ t c, GetNextRawTok raw 0 false = some (t, c) := by
  have h0 : 0 < raw.length := List.length_pos.2 hwf.1
  have ht0 : raw[0]? = some raw[0] := List.getElem?_eq_getElem h0
  unfold GetNextRawTok
  simp only [ht0]
  by_cases hcm : (!false && raw[0].kind == TokKind.comment) = true
  · rw [if_pos hcm]
    have hkc : raw[0].kind = TokKind.comment := by
      simp only [Bool.and_eq_true, beq_iff_eq] at hcm
      exact hcm.2
    have ht0ne : raw[0].kind ≠ TokKind.eof := by
      rw [hkc]
      simp
    have hlt2 : 0 + 1 < raw.length := not_eof_lt_of_wf hwf.1 hwf.2.1 ht0 ht0ne
    rw [List.getElem?_eq_getElem hlt2]
    exact ⟨_, _, rfl⟩
  · rw [if_neg hcm]
    exact ⟨_, _, rfl⟩

/-- With resolved identifier infos, the directive inspection never
dereferences a null pointer or reads out of bounds. -/
theorem directiveEdit_safe {raw : List Token} (hwf : wfRaw raw) {cur : Nat} {nt : Token}
    (hashOffs : Nat) (hnt : raw[cur]? = some nt) :
    ∃ es, directiveEdit raw cur nt hashOffs = some es := by
  unfold directiveEdit
  by_cases hk : nt.kind = TokKind.identifier
  · rw [if_pos hk]
    have hsome := hwf.2.2.2.2.1 nt (List.getElem?_mem hnt) hk
    rcases hid : nt.ident with _ | nm
    · rw [hid] at hsome
      simp at hsome
    · show ∃ es, (if nm = "warning" then _ else _) = some es
      by_cases hw : nm = "warning"
      · rw [if_pos hw]
        exact ⟨_, rfl⟩
      · rw [if_neg hw]
        by_cases hp : nm = "pragma"
        · rw [if_pos hp]
          have hntne : nt.kind ≠ TokKind.eof := by
            rw [hk]
            simp
          have hlt2 : cur + 1 < raw.length := not_eof_lt_of_wf hwf.1 hwf.2.1 hnt hntne
          simp only [List.getElem?_eq_getElem hlt2]
          by_cases hk2 : raw[cur + 1].kind = TokKind.identifier
          · rw [if_pos hk2]
            have hsome2 := hwf.2.2.2.2.1 raw[cur + 1] (List.getElem_mem hlt2) hk2
            rcases hid2 : raw[cur + 1].ident with _ | nm2
            · rw [hid2] at hsome2
              simp at hsome2
            · show ∃ es, (if nm2 = "mark" then _ else _) = some es
              by_cases hm : nm2 = "mark"
              · rw [if_pos hm]
                exact ⟨_, rfl⟩
              · rw [if_neg hm]
                exact ⟨_, rfl⟩
          · rw [if_neg hk2]
            exact ⟨_, rfl⟩
        · rw [if_neg hp]
          exact ⟨_, rfl⟩
  · rw [if_neg hk]
    exact ⟨_, rfl⟩

/-- The directive-line skip loop never trips the assertion and never runs
out of fuel on a well-formed raw list. -/
theorem skipDirectiveLine_safe {raw : List Token} (hwf : wfRaw raw) :
    ∀ (fuel : Nat) {t : Token} {cur : Nat},
    1 ≤ cur → raw[cur - 1]? = some t → raw.length - cur < fuel →
    ∃ t2 c2, skipDirectiveLine raw fuel t cur = some (t2, c2) := by
  intro fuel
  induction fuel with
  | zero =>
    intro t cur h1 hc hf
    omega
  | succ n ih =>
    intro t cur h1 hc hf
    unfold skipDirectiveLine
    split
    next hcond =>
      obtain ⟨t1, c1, hg⟩ := getNext_safe hwf false h1 hc hcond.2
      rw [hg]
      obtain ⟨hlt, hle, hlt2, hpos, _⟩ := getNext_inv hg
      exact ih (by omega) hpos (by omega)
    next hcond =>
      exact ⟨_, _, rfl⟩

/-- The deletion-run loop never trips the assertion and never runs out
of fuel: with a well-formed raw list, the fetched tokens stop at the
latest at the raw eof (which either no longer satisfies the loop
condition or matches the preprocessed eof). -/
theorem deletionLoop_safe {raw : List Token} (hwf : wfRaw raw) (PPTok : Token) (PPOffs : Nat)
    (hppk : PPTok.kind = TokKind.eof →
      PPOffs = (raw.getLastD dummyTok).offset ∧ PPTok.ident = none)
    (hppo : PPTok.kind ≠ TokKind.eof → PPOffs < (raw.getLastD dummyTok).offset) :
    ∀ (fuel : Nat) {RawTok : Token} (RawOffs : Nat) {cur : Nat},
    1 ≤ cur → raw[cur - 1]? = some RawTok → RawTok.kind ≠ TokKind.eof →
    raw.length - cur < fuel →
    ∃ EndPos t2 c2, deletionLoop raw PPTok PPOffs fuel RawTok RawOffs cur =
      some (EndPos, t2, c2) := by
  intro fuel
  induction fuel with
  | zero =>
    intro RawTok RawOffs cur h1 hc ht hf
    omega
  | succ n ih =>
    intro RawTok RawOffs cur h1 hc ht hf
    obtain ⟨t1, c1, hg⟩ := getNext_safe hwf true h1 hc ht
    obtain ⟨hlt, hle, hlt2, hpos, _⟩ := getNext_inv hg
    unfold deletionLoop
    simp only [hg]
    by_cases hcm : t1.kind = TokKind.comment
    · rw [if_pos hcm]
      have ht1ne : t1.kind ≠ TokKind.eof := by
        rw [hcm]
        simp
      obtain ⟨t3, c3, hg2⟩ := getNext_safe hwf false (by omega) hpos ht1ne
      simp only [hg2]
      exact ⟨_, _, _, rfl⟩
    · rw [if_neg hcm]
      by_cases hcnd : t1.offset ≤ PPOffs ∧ t1.startsLine = false ∧
          (PPOffs ≠ t1.offset ∨ isSameToken t1 PPTok = false)
      · rw [if_pos hcnd]
        have ht1ne : t1.kind ≠ TokKind.eof := by
          intro he
          obtain ⟨hkl, hteq⟩ := eof_last_of_wf hwf.1 hwf.2.2.2.1 hpos he
          by_cases hpe : PPTok.kind = TokKind.eof
          · obtain ⟨ho, hi⟩ := hppk hpe
            have hti : t1.ident = none := by
              rw [hteq]
              exact hwf.2.2.1
            have hsame : isSameToken t1 PPTok = true := by
              unfold isSameToken
              rw [hpe, he, hti, hi]
              simp
            have hto : t1.offset = (raw.getLastD dummyTok).offset := by rw [hteq]
            rcases hcnd.2.2 with hd | hd
            · exact hd (by omega)
            · rw [hsame] at hd
              exact Bool.noConfusion hd
          · have hlo := hppo hpe
            have hto : t1.offset = (raw.getLastD dummyTok).offset := by rw [hteq]
            have := hcnd.1
            omega
        exact ih _ (by omega) hpos ht1ne (by omega)
      · rw [if_neg hcnd]
        exact ⟨_, _, _, rfl⟩

/-- The insertion-run loop never walks past the end of the preprocessed
stream: it stops at the latest at the final eof, whose resolved offset is
at least the raw offset. -/
theorem insertionLoop_safe {pp : List Token} {RawOffs : Nat}
    (hlast : RawOffs ≤ (pp.getLastD dummyTok).offset) :
    ∀ (fuel : Nat) {PPTok : Token} {i : Nat} (acc : String),
    1 ≤ i → pp[i - 1]? = some PPTok → pp.length - i < fuel →
    ∃ a2 t2 i2, insertionLoop pp RawOffs fuel PPTok i acc = some (a2, t2, i2) := by
  intro fuel
  induction fuel with
  | zero =>
    intro PPTok i acc h1 hp hf
    omega
  | succ n ih =>
    intro PPTok i acc h1 hp hf
    unfold insertionLoop
    by_cases hlt : PPTok.offset < RawOffs
    · rw [if_pos hlt]
      have hig : i < pp.length := by
        rcases List.getElem?_eq_some.1 hp with ⟨hi1, hieq⟩
        by_contra hcn
        have hieq2 : i = pp.length := by omega
        have hnep : pp ≠ [] := by
          intro hnil
          rw [hnil] at hi1
          simp at hi1
        have h2 := getLastD_getElem hnep
        rw [← hieq2, hp] at h2
        have h3 : PPTok = pp.getLastD dummyTok := Option.some.inj h2
        rw [h3] at hlt
        omega
      simp only [List.getElem?_eq_getElem hig]
      exact ih _ (by omega) (by simp [List.getElem?_eq_getElem hig]) (by omega)
    · rw [if_neg hlt]
      exact ⟨_, _, _, rfl⟩

/-- On well-formed streams, one iteration from an invariant state never
fails (no assertion, no out-of-bounds read, no fuel exhaustion in the
inner loops) and preserves the cursor invariant. -/
theorem alignStep_safe {ctx : AlignCtx} {s : AlignState}
    (hraw : wfRaw ctx.rawTokens) (hpp : wfPP ctx.rawTokens ctx.ppTokens)
    (hinv : stateInv ctx s) :
    alignStep ctx s ≠ StepResult.fail ∧
      ∀ s2, alignStep ctx s = StepResult.next s2 → stateInv ctx s2 := by
  obtain ⟨hc1, hc2, hcp, hp1, hp2, hpq⟩ := hinv
  have hppmem : s.ppTok ∈ ctx.ppTokens := List.getElem?_mem hpq
  have hrawmem : s.rawTok ∈ ctx.rawTokens := List.getElem?_mem hcp
  unfold alignStep
  by_cases hdone : s.rawTok.kind = TokKind.eof ∧ s.ppTok.kind = TokKind.eof
  · rw [if_pos hdone]
    exact ⟨fun h => StepResult.noConfusion h, fun s2 h => absurd h (by simp)⟩
  · rw [if_neg hdone]
    by_cases hfor : s.ppTok.fromMainFile = false
    · rw [if_pos hfor]
      have hplt : s.ppIdx < ctx.ppTokens.length := by
        by_contra hcn
        have hieq : s.ppIdx = ctx.ppTokens.length := by omega
        have h2 := getLastD_getElem hpp.1
        have hieq2 : ctx.ppTokens.length - 1 = s.ppIdx - 1 := by omega
        rw [hieq2, hpq] at h2
        have h3 : s.ppTok = ctx.ppTokens.getLastD dummyTok := Option.some.inj h2
        have h4 := hpp.2.2.2.1
        rw [← h3] at h4
        rw [h4] at hfor
        exact Bool.noConfusion hfor
      simp only [List.getElem?_eq_getElem hplt]
      refine ⟨fun h => StepResult.noConfusion h, fun s2 h => ?_⟩
      obtain rfl := (StepResult.next.inj h).symm
      exact ⟨hc1, hc2, hcp, show 1 ≤ s.ppIdx + 1 by omega,
        show s.ppIdx + 1 ≤ ctx.ppTokens.length by omega,
        show ctx.ppTokens[s.ppIdx + 1 - 1]? = some ctx.ppTokens[s.ppIdx] by
          simp [List.getElem?_eq_getElem hplt]⟩
    · rw [if_neg hfor]
      have hmain : s.ppTok.fromMainFile = true := by
        cases hfm : s.ppTok.fromMainFile
        · exact absurd hfm hfor
        · rfl
      by_cases hhash : s.rawTok.kind = TokKind.hash ∧ s.rawTok.startsLine = true
      · rw [if_pos hhash]
        have hrne : s.rawTok.kind ≠ TokKind.eof := by
          rw [hhash.1]
          simp
        have hclt : s.curRawTok < ctx.rawTokens.length := by
          have := not_eof_lt_of_wf hraw.1 hraw.2.1 hcp hrne
          omega
        simp only [List.getElem?_eq_getElem hclt]
        obtain ⟨es, hde⟩ := directiveEdit_safe hraw s.rawTok.offset
          (List.getElem?_eq_getElem hclt)
        simp only [hde]
        obtain ⟨t1, c1, hg⟩ := getNext_safe hraw false hc1 hcp hrne
        simp only [hg]
        obtain ⟨hglt, hgle, hglt2, hgpos, _⟩ := getNext_inv hg
        obtain ⟨t2, c2, hsk⟩ := skipDirectiveLine_safe hraw (ctx.rawTokens.length + 1)
          (by omega) hgpos (by omega)
        simp only [hsk]
        refine ⟨fun h => StepResult.noConfusion h, fun s2 h => ?_⟩
        obtain rfl := (StepResult.next.inj h).symm
        obtain ⟨hsa, hsb, hscpos, _⟩ := skipDirectiveLine_inv hsk
        exact ⟨show 1 ≤ c2 by omega, show c2 ≤ ctx.rawTokens.length by omega,
          hscpos hgpos, hp1, hp2, hpq⟩
      · rw [if_neg hhash]
        by_cases hm : s.ppTok.offset = s.rawTok.offset ∧ isSameToken s.rawTok s.ppTok = true
        · rw [if_pos hm]
          have hrne : s.rawTok.kind ≠ TokKind.eof := by
            intro he
            have hpne : s.ppTok.kind ≠ TokKind.eof := fun hpe => hdone ⟨he, hpe⟩
            obtain ⟨_, hteq⟩ := eof_last_of_wf hraw.1 hraw.2.2.2.1 hcp he
            have hident : s.rawTok.ident = none := by
              rw [hteq]
              exact hraw.2.2.1
            have hkne : s.ppTok.kind ≠ s.rawTok.kind := by
              rw [he]
              exact hpne
            have := isSameToken_ident_none hkne (Or.inl hident)
            rw [hm.2] at this
            exact Bool.noConfusion this
          have hpne : s.ppTok.kind ≠ TokKind.eof := by
            intro hpe
            have hrne2 : s.rawTok.kind ≠ TokKind.eof := hrne
            obtain ⟨_, hteq⟩ := eof_last_of_wf hpp.1 hpp.2.2.2.2.2.1 hpq hpe
            have hident : s.ppTok.ident = none := by
              rw [hteq]
              exact hpp.2.2.1
            have hkne : s.ppTok.kind ≠ s.rawTok.kind := by
              rw [hpe]
              intro hq
              exact hrne2 hq.symm
            have := isSameToken_ident_none hkne (Or.inr hident)
            rw [hm.2] at this
            exact Bool.noConfusion this
          obtain ⟨t1, c1, hg⟩ := getNext_safe hraw false hc1 hcp hrne
          simp only [hg]
          have hplt : s.ppIdx < ctx.ppTokens.length := by
            have := not_eof_lt_of_wf hpp.1 hpp.2.1 hpq hpne
            omega
          simp only [List.getElem?_eq_getElem hplt]
          refine ⟨fun h => StepResult.noConfusion h, fun s2 h => ?_⟩
          obtain rfl := (StepResult.next.inj h).symm
          obtain ⟨hglt, hgle, hglt2, hgpos, _⟩ := getNext_inv hg
          exact ⟨show 1 ≤ c1 by omega, show c1 ≤ ctx.rawTokens.length by omega, hgpos,
            show 1 ≤ s.ppIdx + 1 by omega,
            show s.ppIdx + 1 ≤ ctx.ppTokens.length by omega,
            show ctx.ppTokens[s.ppIdx + 1 - 1]? = some ctx.ppTokens[s.ppIdx] by
              simp [List.getElem?_eq_getElem hplt]⟩
        · rw [if_neg hm]
          by_cases hdl : s.rawTok.offset ≤ s.ppTok.offset
          · rw [if_pos hdl]
            have hrne : s.rawTok.kind ≠ TokKind.eof := by
              intro he
              by_cases hpe : s.ppTok.kind = TokKind.eof
              · exact hdone ⟨he, hpe⟩
              · have hofs := hpp.2.2.2.2.2.2 s.ppTok hppmem hmain hpe
                obtain ⟨_, hteq⟩ := eof_last_of_wf hraw.1 hraw.2.2.2.1 hcp he
                have hto : s.rawTok.offset = (ctx.rawTokens.getLastD dummyTok).offset := by
                  rw [hteq]
                omega
            have hppk : s.ppTok.kind = TokKind.eof →
                s.ppTok.offset = (ctx.rawTokens.getLastD dummyTok).offset ∧
                  s.ppTok.ident = none := by
              intro hpe
              obtain ⟨_, hteqp⟩ := eof_last_of_wf hpp.1 hpp.2.2.2.2.2.1 hpq hpe
              refine ⟨?_, ?_⟩
              · rw [hteqp]
                exact hpp.2.2.2.2.1
              · rw [hteqp]
                exact hpp.2.2.1
            have hppo : s.ppTok.kind ≠ TokKind.eof →
                s.ppTok.offset < (ctx.rawTokens.getLastD dummyTok).offset := by
              intro hpe
              exact hpp.2.2.2.2.2.2 s.ppTok hppmem hmain hpe
            obtain ⟨E, t2, c2, hdlp⟩ := deletionLoop_safe hraw s.ppTok s.ppTok.offset hppk
              hppo (ctx.rawTokens.length + 1) s.rawTok.offset hc1 hcp hrne (by omega)
            simp only [hdlp]
            refine ⟨fun h => StepResult.noConfusion h, fun s2 h => ?_⟩
            obtain rfl := (StepResult.next.inj h).symm
            obtain ⟨hdla, hdlb, hdlpos⟩ := deletionLoop_inv hdlp
            exact ⟨show 1 ≤ c2 by omega, hdlb, hdlpos, hp1, hp2, hpq⟩
          · rw [if_neg hdl]
            have hrb : s.rawTok.offset ≤ (ctx.rawTokens.getLastD dummyTok).offset :=
              hraw.2.2.2.2.2 s.rawTok hrawmem
            have hrb2 : s.rawTok.offset ≤ (ctx.ppTokens.getLastD dummyTok).offset := by
              rw [hpp.2.2.2.2.1]
              exact hrb
            obtain ⟨a2, t2, i2, hinsl⟩ := insertionLoop_safe hrb2
              (ctx.ppTokens.length + 1) "" hp1 hpq (by omega)
            simp only [hinsl]
            refine ⟨fun h => StepResult.noConfusion h, fun s2 h => ?_⟩
            obtain rfl := (StepResult.next.inj h).symm
            obtain ⟨hila, hilb, hilpos, hilstrict⟩ := insertionLoop_inv hinsl
            obtain ⟨hia, hib⟩ := hilstrict (by omega)
            exact ⟨hc1, hc2, hcp, show 1 ≤ i2 by omega, hib, hilpos hpq⟩

/-- On well-formed streams the fueled loop, given fuel above the
measure, always completes. -/
theorem alignLoopF_safe {ctx : AlignCtx} (hraw : wfRaw ctx.rawTokens)
    (hpp : wfPP ctx.rawTokens ctx.ppTokens) :
    ∀ {fuel : Nat} {s : AlignState}, stateInv ctx s → alignMeasure ctx s < fuel →
    ∃ s2, alignLoopF ctx fuel s = some s2 := by
  intro fuel
  induction fuel with
  | zero =>
    intro s hinv hf
    omega
  | succ n ih =>
    intro s hinv hf
    cases hstep : alignStep ctx s with
    | done s2 =>
      refine ⟨s2, ?_⟩
      unfold alignLoopF
      rw [hstep]
    | fail => exact absurd hstep (alignStep_safe hraw hpp hinv).1
    | next s2 =>
      have hinv2 := (alignStep_safe hraw hpp hinv).2 s2 hstep
      have hm := (alignStep_progress hstep).2.2.2
      obtain ⟨s3, hs3⟩ := ih hinv2 (by omega)
      refine ⟨s3, ?_⟩
      unfold alignLoopF
      rw [hstep]
      exact hs3

/-- C9: given well-formed streams (the raw token list ends with the
file's single eof token, identifier infos are resolved, and the
preprocessed stream's main-file offsets stay inside the file, ending with
the main file's eof), the whole alignment run completes: no call to
`GetNextRawTok` is ever made with the cursor past end-of-file, so the
`Overran eof!` assertion never fires (a `none` result would mark exactly
such a failure). -/
theorem no_cursor_overrun {raw pp : List Token} (hraw : wfRaw raw) (hpp : wfPP raw pp) :
    ∃ s, alignRun raw pp = some s := by
  obtain ⟨t, c, hg⟩ := getNext_zero_safe hraw
  have h0p : 0 < pp.length := List.length_pos.2 hpp.1
  unfold alignRun
  simp only [hg, List.getElem?_eq_getElem h0p]
  obtain ⟨hglt, hgle, hglt2, hgpos, _⟩ := getNext_inv hg
  exact alignLoopF_safe hraw hpp
    ⟨show 1 ≤ c by omega, show c ≤ raw.length from hgle, show raw[c - 1]? = some t from hgpos,
     show (1 : Nat) ≤ 1 from le_refl 1, show 1 ≤ pp.length from h0p,
     show pp[1 - 1]? = some pp[0] by simp [List.getElem?_eq_getElem h0p]⟩
    (show raw.length - c + (pp.length - 1) < raw.length + pp.length + 1 by omega)

/-- Witness for C9 at concrete well-formed streams. -/
theorem no_cursor_overrun_witness : ∃ s, alignRun exC9raw exC9pp = some s :=
  no_cursor_overrun (by unfold wfRaw; decide) (by unfold wfPP; decide)

/-- Adjacent-extent ordering of the raw list gives extent ordering at any
pair of positions. -/
theorem pairwise_offsets {raw : List Token}
    (hord : List.Pairwise (fun a b => a.offset + a.length ≤ b.offset) raw)
    {i j : Nat} {a b : Token} (hij : i < j) (ha : raw[i]? = some a) (hb : raw[j]? = some b) :
    a.offset + a.length ≤ b.offset := by
  rcases List.getElem?_eq_some.1 ha with ⟨hi, hia⟩
  rcases List.getElem?_eq_some.1 hb with ⟨hj, hjb⟩
  have := List.pairwise_iff_getElem.1 hord i j hi hj hij
  rwa [hia, hjb] at this

/-- Token offsets are monotone along a list with ordered extents. -/
theorem offsets_mono {raw : List Token}
    (hord : List.Pairwise (fun a b => a.offset + a.length ≤ b.offset) raw)
    {i j : Nat} {a b : Token} (hij : i ≤ j) (ha : raw[i]? = some a) (hb : raw[j]? = some b) :
    a.offset ≤ b.offset := by
  rcases Nat.lt_or_eq_of_le hij with h | h
  · have := pairwise_offsets hord h ha hb
    omega
  · subst h
    rw [ha] at hb
    rw [Option.some.inj hb]

/-- `offsetsNonDecreasing` is the chain of pairwise `≤` on offsets. -/
theorem offsetsNonDecreasing_iff_chain {xs : List Edit} :
    offsetsNonDecreasing xs = true ↔ List.Chain' (fun a b => a.offset ≤ b.offset) xs := by
  induction xs with
  | nil => simp [offsetsNonDecreasing]
  | cons a rest ih =>
    cases rest with
    | nil => simp [offsetsNonDecreasing]
    | cons b rest2 =>
      rw [offsetsNonDecreasing, List.chain'_cons, ← ih]
      simp

/-- Where the deletion run's closer lands: between the run's start offset
and the offset of the token left current (given ordered raw extents). -/
theorem deletionLoop_endPos {raw : List Token}
    (hord : List.Pairwise (fun a b => a.offset + a.length ≤ b.offset) raw)
    {PPTok : Token} {PPOffs : Nat} :
    ∀ {fuel : Nat} {RawTok : Token} {RawOffs cur EndPos : Nat} {t2 : Token} {c2 : Nat},
    deletionLoop raw PPTok PPOffs fuel RawTok RawOffs cur = some (EndPos, t2, c2) →
    1 ≤ cur → raw[cur - 1]? = some RawTok → RawOffs = RawTok.offset →
    RawOffs ≤ EndPos ∧ EndPos ≤ t2.offset := by
  intro fuel
  induction fuel with
  | zero =>
    intro RawTok RawOffs cur EndPos t2 c2 h
    exact absurd h (by simp [deletionLoop])
  | succ n ih =>
    intro RawTok RawOffs cur EndPos t2 c2 h h1 hc ho
    unfold deletionLoop at h
    split at h
    · exact absurd h (by simp)
    next tc h1g =>
      obtain ⟨u1, d1⟩ := tc
      dsimp only at h
      obtain ⟨_, hle1, hlt1, hpos1, _⟩ := getNext_inv h1g
      split at h
      next hcom =>
        split at h
        · exact absurd h (by simp)
        next tc2 h2g =>
          obtain ⟨u2, d2⟩ := tc2
          obtain ⟨_, hle2, hlt2, hpos2, _⟩ := getNext_inv h2g
          obtain ⟨he, h3⟩ : RawOffs + RawTok.length = EndPos ∧ (u2, d2) = (t2, c2) := by
            simpa using h
          obtain ⟨rfl, rfl⟩ := Prod.mk.inj h3
          have hpw := pairwise_offsets hord (show cur - 1 < d2 - 1 by omega) hc hpos2
          omega
      next hcom =>
        split at h
        next hcond =>
          obtain ⟨hihA, hihB⟩ := ih h (by omega) hpos1 rfl
          have hpw := pairwise_offsets hord (show cur - 1 < d1 - 1 by omega) hc hpos1
          omega
        next hcond =>
          obtain ⟨he, h3⟩ : RawOffs + RawTok.length = EndPos ∧ (u1, d1) = (t2, c2) := by
            simpa using h
          obtain ⟨rfl, rfl⟩ := Prod.mk.inj h3
          have hpw := pairwise_offsets hord (show cur - 1 < d1 - 1 by omega) hc hpos1
          omega

/-- Shape of one continuing iteration's edits, for the raw-anchored
monotonicity argument: the raw token's offset never decreases, and the
new edits are either none, one insertion-run edit, one raw-anchored edit
between the old and new raw offsets, or a deletion pair ordered between
them. -/
theorem alignStep_rawAnchored {ctx : AlignCtx}
    (hord : List.Pairwise (fun a b => a.offset + a.length ≤ b.offset) ctx.rawTokens)
    {s s2 : AlignState} (h : alignStep ctx s = StepResult.next s2)
    (hpos1 : 1 ≤ s.curRawTok) (hpos : ctx.rawTokens[s.curRawTok - 1]? = some s.rawTok) :
    1 ≤ s2.curRawTok ∧ ctx.rawTokens[s2.curRawTok - 1]? = some s2.rawTok ∧
    s.rawTok.offset ≤ s2.rawTok.offset ∧
    (s2.edits = s.edits ∨
     (∃ e, s2.edits = s.edits ++ [e] ∧ e.src = EditSrc.insertion) ∨
     (∃ e, s2.edits = s.edits ++ [e] ∧ e.src ≠ EditSrc.insertion ∧
        s.rawTok.offset ≤ e.offset ∧ e.offset ≤ s2.rawTok.offset) ∨
     (∃ e1 e2, s2.edits = s.edits ++ [e1, e2] ∧ e1.src ≠ EditSrc.insertion ∧
        e2.src ≠ EditSrc.insertion ∧ s.rawTok.offset ≤ e1.offset ∧ e1.offset ≤ e2.offset ∧
        e2.offset ≤ s2.rawTok.offset)) := by
  unfold alignStep at h
  split at h
  · exact absurd h (by simp)
  next hne =>
    split at h
    next hforeign =>
      split at h
      · exact absurd h (by simp)
      next pt hpt =>
        cases h
        exact ⟨hpos1, hpos, le_refl _, Or.inl rfl⟩
    next hforeign =>
      split at h
      next hhash =>
        split at h
        · exact absurd h (by simp)
        next nt hnt =>
          split at h
          · exact absurd h (by simp)
          next es hde =>
            split at h
            · exact absurd h (by simp)
            next tc hget =>
              split at h
              · exact absurd h (by simp)
              next tc2 hskip =>
                obtain ⟨u1, d1⟩ := tc
                obtain ⟨u2, d2⟩ := tc2
                obtain ⟨h1lt, h1le, h1lt2, h1posA, _⟩ := getNext_inv hget
                obtain ⟨h2a, h2b, h2posF, _⟩ := skipDirectiveLine_inv hskip
                have h2pos : ctx.rawTokens[d2 - 1]? = some u2 := h2posF h1posA
                cases h
                have hmono : s.rawTok.offset ≤ u2.offset :=
                  offsets_mono hord (show s.curRawTok - 1 ≤ d2 - 1 by omega) hpos h2pos
                refine ⟨show 1 ≤ d2 by omega, h2pos, hmono, ?_⟩
                rw [directiveEdit_spec hde]
                by_cases hw : directiveWantsMarker ctx.rawTokens s.curRawTok nt = true
                · rw [if_pos hw]
                  exact Or.inr (Or.inr (Or.inl ⟨_, rfl, by simp, le_refl _, hmono⟩))
                · rw [if_neg hw]
                  exact Or.inl (by simp)
      next hhash =>
        split at h
        next hmatch =>
          split at h
          · exact absurd h (by simp)
          next tc hget =>
            split at h
            · exact absurd h (by simp)
            next pt hpt =>
              obtain ⟨u1, d1⟩ := tc
              obtain ⟨h1lt, h1le, h1lt2, h1posA, _⟩ := getNext_inv hget
              cases h
              have hmono : s.rawTok.offset ≤ u1.offset :=
                offsets_mono hord (show s.curRawTok - 1 ≤ d1 - 1 by omega) hpos h1posA
              exact ⟨show 1 ≤ d1 by omega, h1posA, hmono, Or.inl rfl⟩
        next hmatch =>
          split at h
          next hdel =>
            split at h
            · exact absurd h (by simp)
            next edc hdelLoop =>
              obtain ⟨ep, rt, c2⟩ := edc
              obtain ⟨hdlt, hdle, hdpos⟩ := deletionLoop_inv hdelLoop
              obtain ⟨hea, heb⟩ := deletionLoop_endPos hord hdelLoop hpos1 hpos rfl
              cases h
              have hmono : s.rawTok.offset ≤ rt.offset :=
                offsets_mono hord (show s.curRawTok - 1 ≤ c2 - 1 by omega) hpos hdpos
              refine ⟨show 1 ≤ c2 by omega, hdpos, hmono, Or.inr (Or.inr (Or.inr
                ⟨_, _, rfl, by simp, by simp, le_refl _,
                 show s.rawTok.offset ≤ ep by omega, heb⟩))⟩
          next hdel =>
            split at h
            · exact absurd h (by simp)
            next ati hins =>
              obtain ⟨a2, t2, i2⟩ := ati
              cases h
              exact ⟨hpos1, hpos, le_refl _, Or.inr (Or.inl ⟨_, rfl, by simp⟩)⟩

/-- An edit not from an insertion run survives the filter. -/
theorem nonInsertion_keep {x : Edit} (hx : x.src ≠ EditSrc.insertion) :
    (!(x.src == EditSrc.insertion)) = true := by
  simp [hx]

/-- Over a whole run from a state whose raw-anchored edits are ordered
and bounded by the current raw offset, the raw-anchored edits of the
final state are ordered. -/
theorem alignLoopF_rawAnchored {ctx : AlignCtx}
    (hord : List.Pairwise (fun a b => a.offset + a.length ≤ b.offset) ctx.rawTokens) :
    ∀ {fuel : Nat} {s st : AlignState}, alignLoopF ctx fuel s = some st →
    1 ≤ s.curRawTok → ctx.rawTokens[s.curRawTok - 1]? = some s.rawTok →
    List.Chain' (fun a b => a.offset ≤ b.offset) (nonInsertionEdits s.edits) →
    (∀ e ∈ s.edits, e.src ≠ EditSrc.insertion → e.offset ≤ s.rawTok.offset) →
    List.Chain' (fun a b => a.offset ≤ b.offset) (nonInsertionEdits st.edits) := by
  intro fuel
  induction fuel with
  | zero =>
    intro s st h
    exact absurd h (by simp [alignLoopF])
  | succ n ih =>
    intro s st h h1 hp hchain hbound
    unfold alignLoopF at h
    cases hstep : alignStep ctx s with
    | done s2 =>
      rw [hstep] at h
      obtain rfl := Option.some.inj h
      obtain ⟨_, _, rfl⟩ := alignStep_done_iff.1 hstep
      exact hchain
    | fail =>
      rw [hstep] at h
      exact absurd h (by simp)
    | next s2 =>
      rw [hstep] at h
      obtain ⟨h1n, hpn, hmono, hcase⟩ := alignStep_rawAnchored hord hstep h1 hp
      rcases hcase with hc | ⟨e, he, hesrc⟩ | ⟨e, he, hesrc, he1, he2⟩ |
        ⟨e1, e2, he, hs1, hs2, hb1, hb2, hb3⟩
      · refine ih h h1n hpn (by rwa [hc]) ?_
        intro x hmx hsrc
        rw [hc] at hmx
        exact le_trans (hbound x hmx hsrc) hmono
      · have hfil : nonInsertionEdits s2.edits = nonInsertionEdits s.edits := by
          rw [he]
          unfold nonInsertionEdits
          rw [List.filter_append]
          simp [hesrc]
        refine ih h h1n hpn (by rw [hfil]; exact hchain) ?_
        intro x hmx hsrc
        rw [he] at hmx
        rcases List.mem_append.1 hmx with hm | hm
        · exact le_trans (hbound x hm hsrc) hmono
        · rw [List.mem_singleton.1 hm] at hsrc
          exact absurd hesrc hsrc
      · have hfil : nonInsertionEdits s2.edits = nonInsertionEdits s.edits ++ [e] := by
          rw [he]
          unfold nonInsertionEdits
          rw [List.filter_append]
          simp [List.filter_cons, nonInsertion_keep hesrc]
        refine ih h h1n hpn ?_ ?_
        · rw [hfil]
          refine List.chain'_append.2 ⟨hchain, by simp, ?_⟩
          intro x hx y hy
          simp only [List.head?_cons, Option.mem_def, Option.some.injEq] at hy
          subst hy
          have hxm := List.mem_of_mem_getLast? hx
          rcases List.mem_filter.1 hxm with ⟨hma, hmb⟩
          refine le_trans (hbound x hma ?_) he1
          simpa using hmb
        · intro x hmx hsrc
          rw [he] at hmx
          rcases List.mem_append.1 hmx with hm | hm
          · exact le_trans (hbound x hm hsrc) hmono
          · rw [List.mem_singleton.1 hm]
            exact he2
      · have hfil : nonInsertionEdits s2.edits = nonInsertionEdits s.edits ++ [e1, e2] := by
          rw [he]
          unfold nonInsertionEdits
          rw [List.filter_append]
          simp [List.filter_cons, nonInsertion_keep hs1, nonInsertion_keep hs2]
        refine ih h h1n hpn ?_ ?_
        · rw [hfil]
          refine List.chain'_append.2 ⟨hchain, by simpa using hb2, ?_⟩
          intro x hx y hy
          simp only [List.head?_cons, Option.mem_def, Option.some.injEq] at hy
          subst hy
          have hxm := List.mem_of_mem_getLast? hx
          rcases List.mem_filter.1 hxm with ⟨hma, hmb⟩
          refine le_trans (hbound x hma ?_) hb1
          simpa using hmb
        · intro x hmx hsrc
          rw [he] at hmx
          rcases List.mem_append.1 hmx with hm | hm
          · exact le_trans (hbound x hm hsrc) hmono
          · simp only [List.mem_cons, List.not_mem_nil, or_false] at hm
            rcases hm with rfl | rfl
            · omega
            · exact hb3

/-- C4 (amended): over any pair of token streams whose raw tokens have
ordered, non-overlapping extents, the offsets of the raw-anchored edits
(directive markers and deletion-run openers and closers) are
non-decreasing in emission order; an insertion-run edit, however, may be
issued at an offset smaller than a previously issued edit's offset, as
`edit_offsets_not_monotone_cex` shows. -/
theorem raw_anchored_edits_monotone {raw pp : List Token} {st : AlignState}
    (hord : List.Pairwise (fun a b => a.offset + a.length ≤ b.offset) raw)
    (hrun : alignRun raw pp = some st) :
    offsetsNonDecreasing (nonInsertionEdits st.edits) = true := by
  unfold alignRun at hrun
  split at hrun
  · exact absurd hrun (by simp)
  next tc hg =>
    split at hrun
    · exact absurd hrun (by simp)
    next pt hp0 =>
      obtain ⟨u1, d1⟩ := tc
      obtain ⟨hga, hgb, hgc, hgpos, _⟩ := getNext_inv hg
      rw [offsetsNonDecreasing_iff_chain]
      exact alignLoopF_rawAnchored hord hrun (show 1 ≤ d1 by omega) hgpos
        (by simp [nonInsertionEdits]) (by simp)

/-- Witness for the amended C4 at the `exC2raw` run (ordered extents, two
raw-anchored edits at offsets 0 and 1). -/
theorem raw_anchored_edits_monotone_witness :
    offsetsNonDecreasing (nonInsertionEdits exC2final.edits) = true :=
  @raw_anchored_edits_monotone exC2raw exC2pp exC2final (by decide) (by decide)

/-- A token equals itself under `isSameToken`. -/
theorem isSameToken_self (t : Token) : isSameToken t t = true := by
  unfold isSameToken
  simp

/-- Under `noAdjacentComments`, the successor of a comment is not a
comment. -/
theorem noAdjacentComments_spec : ∀ {l : List Token}, noAdjacentComments l = true →
    ∀ {i : Nat} {a b : Token}, l[i]? = some a → l[i + 1]? = some b →
    a.kind = TokKind.comment → b.kind ≠ TokKind.comment := by
  intro l
  induction l with
  | nil =>
    intro h i a b ha
    simp at ha
  | cons x rest ih =>
    intro h i a b ha hb hc
    cases rest with
    | nil =>
      rcases i with _ | j
      · rw [List.getElem?_eq_none (by simp)] at hb
        exact absurd hb (by simp)
      · rw [List.getElem?_eq_none (by simp)] at ha
        exact absurd ha (by simp)
    | cons y rest2 =>
      have hp : ¬(x.kind = TokKind.comment ∧ y.kind = TokKind.comment) ∧
          noAdjacentComments (y :: rest2) = true := by
        unfold noAdjacentComments at h
        simp only [Bool.and_eq_true, Bool.not_eq_eq_eq_not, Bool.not_true,
          Bool.and_eq_false_imp, beq_iff_eq] at h
        constructor
        · intro hcc
          have := h.1
          rw [hcc.1] at this
          have := this rfl
          exact absurd hcc.2 (by simpa using this)
        · exact h.2
      rcases i with _ | j
      · simp only [List.getElem?_cons_zero, Option.some.injEq] at ha
        simp only [List.getElem?_cons_succ, List.getElem?_cons_zero, Option.some.injEq] at hb
        subst ha
        subst hb
        intro hbc
        exact hp.1 ⟨hc, hbc⟩
      · have ha2 : (y :: rest2)[j]? = some a := by simpa using ha
        have hb2 : (y :: rest2)[j + 1]? = some b := by simpa using hb
        exact ih hp.2 ha2 hb2 hc

/-- Dropping to a non-comment token and filtering starts with that
token. -/
theorem filter_drop_cons {raw : List Token} {k : Nat} {t : Token}
    (hk : raw[k]? = some t) (hnc : t.kind ≠ TokKind.comment) :
    (raw.drop k).filter (fun x => !(x.kind == TokKind.comment)) =
      t :: (raw.drop (k + 1)).filter (fun x => !(x.kind == TokKind.comment)) := by
  rcases List.getElem?_eq_some.1 hk with ⟨hlt, heq⟩
  rw [List.drop_eq_getElem_cons hlt, heq, List.filter_cons]
  simp [hnc]

/-- Dropping to a comment token and filtering skips that token. -/
theorem filter_drop_comment {raw : List Token} {k : Nat} {t : Token}
    (hk : raw[k]? = some t) (hc : t.kind = TokKind.comment) :
    (raw.drop k).filter (fun x => !(x.kind == TokKind.comment)) =
      (raw.drop (k + 1)).filter (fun x => !(x.kind == TokKind.comment)) := by
  rcases List.getElem?_eq_some.1 hk with ⟨hlt, heq⟩
  rw [List.drop_eq_getElem_cons hlt, heq, List.filter_cons]
  simp [hc]

/-- On a macro-free, directive-free stream (the preprocessed side being
exactly the raw tokens minus comments) every iteration is a match: from a
corresponding state with no edits, the run finishes with no edits. -/
theorem alignLoopF_noMacro {raw : List Token} (hwf : wfRaw raw)
    (hmain : ∀ t ∈ raw, t.fromMainFile = true)
    (hnohash : ∀ t ∈ raw, ¬(t.kind = TokKind.hash ∧ t.startsLine = true))
    (hnoadj : noAdjacentComments raw = true) :
    ∀ {fuel : Nat} {s : AlignState},
    1 ≤ s.curRawTok → raw[s.curRawTok - 1]? = some s.rawTok →
    s.rawTok.kind ≠ TokKind.comment →
    s.ppTok :: (noCommentPP raw).drop s.ppIdx =
      (raw.drop (s.curRawTok - 1)).filter (fun t => !(t.kind == TokKind.comment)) →
    s.edits = [] →
    alignMeasure ⟨raw, noCommentPP raw⟩ s < fuel →
    ∃ st, alignLoopF ⟨raw, noCommentPP raw⟩ fuel s = some st ∧ st.edits = [] := by
  intro fuel
  induction fuel with
  | zero =>
    intro s h1 hp hnc hcorr hed hf
    omega
  | succ n ih =>
    intro s h1 hp hnc hcorr hed hf
    have hsplit : (raw.drop (s.curRawTok - 1)).filter (fun t => !(t.kind == TokKind.comment)) =
        s.rawTok :: (raw.drop s.curRawTok).filter (fun t => !(t.kind == TokKind.comment)) := by
      have := filter_drop_cons hp hnc
      rwa [show s.curRawTok - 1 + 1 = s.curRawTok by omega] at this
    rw [hsplit] at hcorr
    injection hcorr with hpt htail
    by_cases heof : s.rawTok.kind = TokKind.eof
    · have hstep : alignStep ⟨raw, noCommentPP raw⟩ s = StepResult.done s := by
        unfold alignStep
        rw [if_pos ⟨heof, by rw [hpt]; exact heof⟩]
      refine ⟨s, ?_, hed⟩
      unfold alignLoopF
      rw [hstep]
    · obtain ⟨t1, c1, hg⟩ := getNext_safe hwf false h1 hp heof
      obtain ⟨hga, hgb, hgc, hgpos, hgd⟩ := getNext_inv hg
      have ht1nc : t1.kind ≠ TokKind.comment := by
        rcases hgd with ⟨hceq, hread, hnotc⟩ | ⟨hceq, _, t0, ht0, ht0c⟩
        · intro hcm
          exact hnotc ⟨rfl, hcm⟩
        · have hpos1 : raw[s.curRawTok + 1]? = some t1 := by
            rw [hceq] at hgpos
            simpa using hgpos
          exact noAdjacentComments_spec hnoadj ht0 hpos1 ht0c
      have hdropeq : (raw.drop s.curRawTok).filter (fun t => !(t.kind == TokKind.comment)) =
          (raw.drop (c1 - 1)).filter (fun t => !(t.kind == TokKind.comment)) := by
        rcases hgd with ⟨hceq, _, _⟩ | ⟨hceq, _, t0, ht0, ht0c⟩
        · rw [hceq]
          simp
        · rw [filter_drop_comment ht0 ht0c, hceq]
          simp
      have hsplit2 : (raw.drop (c1 - 1)).filter (fun t => !(t.kind == TokKind.comment)) =
          t1 :: (raw.drop c1).filter (fun t => !(t.kind == TokKind.comment)) := by
        have := filter_drop_cons hgpos ht1nc
        rwa [show c1 - 1 + 1 = c1 by omega] at this
      have htail2 : (noCommentPP raw).drop s.ppIdx =
          t1 :: (raw.drop c1).filter (fun t => !(t.kind == TokKind.comment)) := by
        rw [htail, hdropeq, hsplit2]
      have hplen : s.ppIdx < (noCommentPP raw).length := by
        by_contra hcn
        rw [List.drop_eq_nil_of_le (by omega)] at htail2
        exact absurd htail2 (by simp)
      have hdc := List.drop_eq_getElem_cons hplen
      rw [htail2] at hdc
      injection hdc with hh ht
      have hppread : (noCommentPP raw)[s.ppIdx]? = some t1 := by
        rw [List.getElem?_eq_getElem hplen, ← hh]
      have htail3 : (noCommentPP raw).drop (s.ppIdx + 1) =
          (raw.drop c1).filter (fun t => !(t.kind == TokKind.comment)) := ht.symm
      have hmain2 : s.ppTok.fromMainFile = true := by
        rw [hpt]
        exact hmain s.rawTok (List.getElem?_mem hp)
      have hstep : alignStep ⟨raw, noCommentPP raw⟩ s = StepResult.next
          ⟨c1, t1, s.ppIdx + 1, t1, s.edits⟩ := by
        unfold alignStep
        rw [if_neg (show ¬(s.rawTok.kind = TokKind.eof ∧ s.ppTok.kind = TokKind.eof) from
            fun hcc => heof hcc.1)]
        rw [if_neg (show ¬(s.ppTok.fromMainFile = false) by rw [hmain2]; simp)]
        rw [if_neg (hnohash s.rawTok (List.getElem?_mem hp))]
        rw [if_pos (show s.ppTok.offset = s.rawTok.offset ∧
            isSameToken s.rawTok s.ppTok = true from
            ⟨by rw [hpt], by rw [hpt]; exact isSameToken_self _⟩)]
        simp only [hg, hppread]
      obtain ⟨st, hst, hste⟩ := ih (s := ⟨c1, t1, s.ppIdx + 1, t1, s.edits⟩)
        (show 1 ≤ c1 by omega) hgpos ht1nc
        (show t1 :: (noCommentPP raw).drop (s.ppIdx + 1) = _ by rw [htail3, ← hsplit2])
        hed
        (show raw.length - c1 + ((noCommentPP raw).length - (s.ppIdx + 1)) <
          n by
          have hfm : raw.length - s.curRawTok + ((noCommentPP raw).length - s.ppIdx) < n + 1 :=
            hf
          omega)
      refine ⟨st, ?_, hste⟩
      unfold alignLoopF
      rw [hstep]
      exact hst

/-- C7 (counterexample): the file `#warning x` contains no macro
invocations, yet the run over it (whose preprocessed stream is just eof)
issues the `//` directive edit, so the output is not byte-identical to
the input and the no-changes signal is not reported. -/
theorem no_macro_claim_cex :
    (alignRun exC7raw exC7pp).map (fun st => st.edits) =
      some [⟨0, "//", EditAnchor.insertAfter, EditSrc.directive⟩] ∧
    ([⟨0, "//", EditAnchor.insertAfter, EditSrc.directive⟩] : List Edit) ≠ [] := by
  decide

/-- C7 (amended): for every well-formed input whose token stream has no
preprocessor directives (no line-initial `#`) and no two adjacent
comments, and whose preprocessed stream is exactly the raw stream minus
comments (no macro invocations), the alignment pass issues zero edits —
so the output is identical to the input and the no-changes signal is
reported. -/
theorem no_macro_no_edits {raw : List Token} (hwf : wfRaw raw)
    (hmain : ∀ t ∈ raw, t.fromMainFile = true)
    (hnohash : ∀ t ∈ raw, ¬(t.kind = TokKind.hash ∧ t.startsLine = true))
    (hnoadj : noAdjacentComments raw = true) :
    ∃ st, alignRun raw (noCommentPP raw) = some st ∧ st.edits = [] := by
  obtain ⟨t, c, hg⟩ := getNext_zero_safe hwf
  obtain ⟨hga, hgb, hgc, hgpos, hgd⟩ := getNext_inv hg
  have htnc : t.kind ≠ TokKind.comment := by
    rcases hgd with ⟨hceq, hread, hnotc⟩ | ⟨hceq, _, t0, ht0, ht0c⟩
    · intro hcm
      exact hnotc ⟨rfl, hcm⟩
    · have hpos1 : raw[0 + 1]? = some t := by
        rw [hceq] at hgpos
        simpa using hgpos
      exact noAdjacentComments_spec hnoadj ht0 hpos1 ht0c
  have hcorr0 : noCommentPP raw =
      (raw.drop (c - 1)).filter (fun x => !(x.kind == TokKind.comment)) := by
    rcases hgd with ⟨hceq, hread, hnotc⟩ | ⟨hceq, _, t0, ht0, ht0c⟩
    · rw [hceq]
      simp [noCommentPP]
    · rw [hceq]
      have h2 := filter_drop_comment ht0 ht0c
      simp only [List.drop_zero] at h2
      unfold noCommentPP
      simpa using h2
  have hsplit : (raw.drop (c - 1)).filter (fun x => !(x.kind == TokKind.comment)) =
      t :: (raw.drop c).filter (fun x => !(x.kind == TokKind.comment)) := by
    have := filter_drop_cons hgpos htnc
    rwa [show c - 1 + 1 = c by omega] at this
  have hpp0 : (noCommentPP raw)[0]? = some t := by
    rw [hcorr0, hsplit]
    simp
  have hcorr1 : t :: (noCommentPP raw).drop 1 =
      (raw.drop (c - 1)).filter (fun x => !(x.kind == TokKind.comment)) := by
    rw [hsplit]
    congr 1
    rw [hcorr0, hsplit]
    simp
  unfold alignRun
  simp only [hg, hpp0]
  exact alignLoopF_noMacro hwf hmain hnohash hnoadj (show 1 ≤ c by omega) hgpos htnc hcorr1
    rfl
    (show raw.length - c + ((noCommentPP raw).length - 1) <
      raw.length + (noCommentPP raw).length + 1 by omega)

/-- Witness for the amended C7 at a concrete macro-free, directive-free
stream containing an identifier and a comment. -/
theorem no_macro_no_edits_witness :
    ∃ st, alignRun exC7wraw (noCommentPP exC7wraw) = some st ∧ st.edits = [] :=
  no_macro_no_edits (by unfold wfRaw; decide) (by decide) (by decide) (by decide)

end RewriteMacros
